import Mathlib

/-!
Verification development for the speech-synthesis orchestration layer of the
kihbbi.ai repository (xtts_server.py, piper_server.py).  Text is modelled as
List Char; audio byte streams as List Nat (one Nat per byte); audio samples as
exact rationals (the float operations exercised by the claims - clamping,
scaling by 32767, truncation - are exact on the inputs considered).
-/

/-! ### Character classes (Python semantics, used by both servers) -/

/-- Python str whitespace (str.strip / str.split / regex \s for str patterns). -/
def isPyWS (c : Char) : Bool :=
  let n := c.toNat
  (9 ≤ n && n ≤ 13) || n == 32 || (28 ≤ n && n ≤ 31) || n == 0x85 || n == 0xa0 ||
  n == 0x1680 || (0x2000 ≤ n && n ≤ 0x200a) || n == 0x2028 || n == 0x2029 ||
  n == 0x202f || n == 0x205f || n == 0x3000

/-- ASCII alphanumeric.  Python's str.isalnum restricted to ASCII; every call
site in the source applies it to text already reduced to ASCII. -/
def isAsciiAlnum (c : Char) : Bool :=
  let n := c.toNat
  (48 ≤ n && n ≤ 57) || (65 ≤ n && n ≤ 90) || (97 ≤ n && n ≤ 122)

/-- The four sentence-punctuation characters of the regex class [.,!?] and of
the per-word strip set word.strip('.,!?') in sanitize_text. -/
def isPunct (c : Char) : Bool :=
  c == '.' || c == ',' || c == '!' || c == '?'

/-- The strip set of text.strip(' .,!?;:-') in sanitize_text. -/
def isStripSet (c : Char) : Bool :=
  c == ' ' || c == '.' || c == ',' || c == '!' || c == '?' || c == ';' ||
  c == ':' || c == '-'

/-- The strip set of text.strip('.,!?;: ') in the xtts endpoint's
pre-generation cleanup. -/
def isGenStrip (c : Char) : Bool :=
  c == '.' || c == ',' || c == '!' || c == '?' || c == ';' || c == ':' || c == ' '

/-- Terminal punctuation '.!?' tested by the xtts endpoint before appending '.'. -/
def isTermPunct (c : Char) : Bool :=
  c == '.' || c == '!' || c == '?'

/-- Python str.isprintable for ASCII characters (the filter in sanitize_text
runs after the text has been reduced to ASCII). -/
def pyPrintable (c : Char) : Bool :=
  32 ≤ c.toNat && c.toNat ≤ 126

/-- The character allowlist of re.sub(r'[^a-zA-Z0-9\s.,!?\-\'\" ]', ' ', text). -/
def isClassChar (c : Char) : Bool :=
  isAsciiAlnum c || isPyWS c || c == '.' || c == ',' || c == '!' || c == '?' ||
  c == '-' || c == '\'' || c == '"'

/-! ### Python string primitives -/

/-- str.replace(a, b) for a single-character needle (all replace calls in
sanitize_text have single-character needles). -/
def pyReplace (a : Char) (b : List Char) : List Char → List Char
  | [] => []
  | c :: r => (if c = a then b else [c]) ++ pyReplace a b r

/-- Left part of str.strip: drop leading characters satisfying p. -/
def stripLeft (p : Char → Bool) (l : List Char) : List Char := l.dropWhile p

/-- Right part of str.strip: drop trailing characters satisfying p. -/
def stripRight (p : Char → Bool) (l : List Char) : List Char :=
  (l.reverse.dropWhile p).reverse

/-- Python str.strip(chars): drop characters of the set from both ends. -/
def pyStrip (p : Char → Bool) (l : List Char) : List Char :=
  stripRight p (stripLeft p l)

/-- re.sub(r'\s+', ' ', text): every maximal whitespace run becomes one ' '.
The Bool state records whether we are inside a run already rewritten. -/
def collapseWSAux : Bool → List Char → List Char
  | _, [] => []
  | false, c :: r =>
    if isPyWS c then ' ' :: collapseWSAux true r else c :: collapseWSAux false r
  | true, c :: r =>
    if isPyWS c then collapseWSAux true r else c :: collapseWSAux false r

def collapseWS (l : List Char) : List Char := collapseWSAux false l

/-- Emit a pending [.,!?] run: runs of length ≥ 2 become a single '.'. -/
def flushRun (pend : List Char) : List Char :=
  if 2 ≤ pend.length then ['.'] else pend

/-- re.sub(r'[.,!?]{2,}', '.', text): maximal punctuation runs of length ≥ 2
collapse to '.'; the first argument accumulates the current run. -/
def collapseRunsAux : List Char → List Char → List Char
  | pend, [] => flushRun pend
  | pend, c :: r =>
    if isPunct c then collapseRunsAux (pend ++ [c]) r
    else flushRun pend ++ c :: collapseRunsAux [] r

def collapseRuns (l : List Char) : List Char := collapseRunsAux [] l

/-- Scanner state for re.sub(r'\s+[.,!?]\s+', '. ', text): s0 = neutral,
sw acc = consumed the whitespace run acc, swp acc p = run acc then
punctuation p, sskip = matched, swallowing the trailing whitespace run. -/
inductive SPSt
  | s0 : SPSt
  | sw : List Char → SPSt
  | swp : List Char → Char → SPSt
  | sskip : SPSt

/-- re.sub(r'\s+[.,!?]\s+', '. ', text) with leftmost, greedy, non-overlapping
matches, as a one-pass scanner. -/
def spacePunctAux : SPSt → List Char → List Char
  | .s0, [] => []
  | .sw acc, [] => acc
  | .swp acc p, [] => acc ++ [p]
  | .sskip, [] => []
  | .s0, c :: r => if isPyWS c then spacePunctAux (.sw [c]) r else c :: spacePunctAux .s0 r
  | .sw acc, c :: r =>
    if isPyWS c then spacePunctAux (.sw (acc ++ [c])) r
    else if isPunct c then spacePunctAux (.swp acc c) r
    else acc ++ c :: spacePunctAux .s0 r
  | .swp acc p, c :: r =>
    if isPyWS c then '.' :: ' ' :: spacePunctAux .sskip r
    else acc ++ p :: c :: spacePunctAux .s0 r
  | .sskip, c :: r => if isPyWS c then spacePunctAux .sskip r else c :: spacePunctAux .s0 r

def spacePunct (l : List Char) : List Char := spacePunctAux .s0 l

/-- Python str.split() with no separator: split on whitespace runs, no empty
tokens; acc is the word currently being collected. -/
def pySplitAux : List Char → List Char → List (List Char)
  | acc, [] => if acc.isEmpty then [] else [acc]
  | acc, c :: r =>
    if isPyWS c then
      if acc.isEmpty then pySplitAux [] r else acc :: pySplitAux [] r
    else pySplitAux (acc ++ [c]) r

def pySplit (l : List Char) : List (List Char) := pySplitAux [] l

/-- ' '.join(words). -/
def joinSpace : List (List Char) → List Char
  | [] => []
  | [w] => w
  | w :: ws => w ++ ' ' :: joinSpace ws

/-- any(c.isalnum() for c in word). -/
def hasAlnum (w : List Char) : Bool := w.any isAsciiAlnum

/-! ### sanitize_text (xtts_server.py lines 52-100) -/

/-- em dash, replaced by '-'. -/
def emDash : Char := Char.ofNat 0x2014
/-- en dash, replaced by '-'. -/
def enDash : Char := Char.ofNat 0x2013
/-- horizontal ellipsis, replaced by "...". -/
def hEllipsis : Char := Char.ofNat 0x2026

/-- Lines 61-86 of sanitize_text: strip, the character replacements (the
first four .replace calls of the source are literal identity replacements:
'"'->'"' and apostrophe->apostrophe; they are kept for faithfulness), the
ASCII / printable filters, the character-class substitution, the three
regex substitutions, and the final punctuation strip. -/
def sanPre (t : List Char) : List Char :=
  let s1 := pyStrip isPyWS t
  let s2a := pyReplace '"' ['"'] s1
  let s2b := pyReplace '"' ['"'] s2a
  let s2c := pyReplace '\'' ['\''] s2b
  let s2d := pyReplace '\'' ['\''] s2c
  let s2e := pyReplace emDash ['-'] s2d
  let s2f := pyReplace enDash ['-'] s2e
  let s2 := pyReplace hEllipsis ['.', '.', '.'] s2f
  let s3 := s2.filter (fun c => c.toNat < 128)
  let s4 := s3.filter (fun c => pyPrintable c || c == ' ' || c == '\n' || c == '\r' || c == '\t')
  let s5 := s4.map (fun c => if isClassChar c then c else ' ')
  let s6 := collapseWS s5
  let s7 := collapseRuns s6
  let s8 := spacePunct s7
  pyStrip isStripSet s8

/-- Line 89 of sanitize_text: the alphanumeric-bearing words, with '.,!?'
stripped from the ends of each. -/
def sanWords (t : List Char) : List (List Char) :=
  ((pySplit (sanPre t)).filter hasAlnum).map (pyStrip isPunct)

/-- sanitize_text from xtts_server.py, step for step.  Returns [] for the
Python function's "" rejection signal. -/
def sanitize_text (t : List Char) : List Char :=
  if (pyStrip isPyWS t).isEmpty then [] else
  if (sanWords t).length < 2 then [] else
  if (joinSpace (sanWords t)).length < 5 then [] else
  if 200 < (joinSpace (sanWords t)).length then [] else
  joinSpace (sanWords t)

/-! ### Canonical WAV container (the wave module and soundfile both emit the
standard 44-byte PCM header: RIFF chunk, fmt chunk with PCM tag / mono /
16-bit, data chunk).  Bytes are Nats < 256. -/

def le16 (n : Nat) : List Nat := [n % 256, n / 256 % 256]

def le32 (n : Nat) : List Nat :=
  [n % 256, n / 256 % 256, n / 65536 % 256, n / 16777216 % 256]

/-- The 44-byte canonical mono/16-bit PCM WAV header for a data chunk of
dataLen bytes at the given sample rate. -/
def wavHeader (rate dataLen : Nat) : List Nat :=
  [0x52, 0x49, 0x46, 0x46] ++ le32 (36 + dataLen) ++ [0x57, 0x41, 0x56, 0x45] ++
  [0x66, 0x6d, 0x74, 0x20] ++ le32 16 ++ le16 1 ++ le16 1 ++ le32 rate ++
  le32 (rate * 2) ++ le16 2 ++ le16 16 ++ [0x64, 0x61, 0x74, 0x61] ++ le32 dataLen

/-- A complete WAV byte stream: header followed by raw sample data. -/
def wavBytes (rate : Nat) (data : List Nat) : List Nat :=
  wavHeader rate data.length ++ data

/-- A byte stream is a valid PCM/WAV container with a nonempty payload. -/
def IsWavPayload (b : List Nat) : Prop :=
  ∃ rate data, b = wavBytes rate data ∧ data ≠ []

/-- One int16 sample as two little-endian bytes (two's complement). -/
def int16LE (i : ℤ) : List Nat := le16 (i % 65536).toNat

/-- numpy tobytes for an int16 array. -/
def int16sToBytes : List ℤ → List Nat
  | [] => []
  | i :: r => int16LE i ++ int16sToBytes r

/-! ### AudioEncoder (piper_server.py lines 255-283) -/

/-- Truncation toward zero, the conversion performed by numpy's
astype(np.int16) on in-range values and by Python's int() on floats. -/
def qTrunc (x : ℚ) : ℤ := if x < 0 then ⌈x⌉ else ⌊x⌋

/-- np.clip(x, -1.0, 1.0). -/
def clip1 (x : ℚ) : ℚ := max (-1) (min 1 x)

/-- One float sample to int16: clamp, scale by 32767, truncate toward zero
((audio_clamped * 32767).astype(np.int16)). -/
def floatToI16 (x : ℚ) : ℤ := qTrunc (clip1 x * 32767)

/-- The shapes audio_data can have at the isinstance/dtype dispatch:
float32/float64 array, int16 array, any other numpy dtype (converted via
float32), a Python list/tuple (converted via np.array(..., float32)), or a
non-array object treated as raw bytes. -/
inductive RawAud
  | fl (xs : List ℚ)
  | i16 (xs : List ℤ)
  | otherDt (xs : List ℚ)
  | pyListF (xs : List ℚ)
  | blob (bs : List Nat)
deriving DecidableEq

/-- The encoder branch of the manual method: produce the raw audio_bytes
written to the data chunk. -/
def encodeRawAud : RawAud → List Nat
  | .fl xs => int16sToBytes (xs.map floatToI16)
  | .i16 xs => int16sToBytes xs
  | .otherDt xs => int16sToBytes (xs.map floatToI16)
  | .pyListF xs => int16sToBytes (xs.map floatToI16)
  | .blob bs => bs

/-- The validity test of line 245: not None, and size/len positive. -/
def rawNonempty : RawAud → Bool
  | .fl xs => !xs.isEmpty
  | .i16 xs => !xs.isEmpty
  | .otherDt xs => !xs.isEmpty
  | .pyListF xs => !xs.isEmpty
  | .blob bs => !bs.isEmpty

/-- The spec's version of the float rule ("round to nearest"), for comparison
with the code's truncation. -/
def floatToI16SpecRound (x : ℚ) : ℤ := round (clip1 x * 32767)

/-! ### SilenceGenerator (piper_server.py lines 378-391) -/

/-- samples = int(sample_rate * duration_seconds) with the hardcoded
sample_rate = 22050; int() truncates toward zero, negative counts give an
empty payload like Python's b'times'. -/
def silentSampleCount (d : ℚ) : Nat := (qTrunc (22050 * d)).toNat

/-- create_silent_wav: a mono 16-bit WAV at 22050 Hz whose data chunk is
2 * samples zero bytes. -/
def create_silent_wav (d : ℚ) : List Nat :=
  wavBytes 22050 (List.replicate (2 * silentSampleCount d) 0)

/-! ### soundfile writes in xtts_server.py.  sf.write(buf, wav, 24000,
format="WAV") emits the canonical 44-byte header and PCM_16 data; the
float->int16 conversion is the external library's (modelled like the numpy
conversion; the claims only use that 0.0 maps to 0 and that each sample
occupies two bytes). -/

def sfWriteWav (xs : List ℚ) : List Nat :=
  wavBytes 24000 (int16sToBytes (xs.map floatToI16))

/-- sf.write(buf, [0.0] * n, 24000, format="WAV"), the xtts silence response. -/
def sfSil (n : Nat) : List Nat := sfWriteWav (List.replicate n 0)

/-! ### SpeakerResolver (xtts_server.py lines 103-129) -/

/-- The filesystem capability: existence checks and absolute-path tests. -/
structure Fs where
  isFile : List Char → Bool
  isAbs : List Char → Bool

/-- Model of the directory containing the script (os.path.dirname(...)). -/
def BASE_DIR : List Char := ['T', 'T', 'S']

/-- os.path.join(BASE_DIR, p). -/
def joinBase (p : List Char) : List Char := BASE_DIR ++ '/' :: p

def DEFAULT_SPEAKER_WAV : List Char :=
  joinBase ['s', 'p', 'e', 'a', 'k', 'e', 'r', '.', 'w', 'a', 'v']

/-- resolve_speaker_path: explicit reference first (absolute, or joined to
BASE_DIR, accepted only if the file exists), then the default speaker file,
else none. -/
def resolve_speaker_path (fs : Fs) (speaker_wav : Option (List Char)) :
    Option (List Char) :=
  let fallback := if fs.isFile DEFAULT_SPEAKER_WAV then some DEFAULT_SPEAKER_WAV else none
  match speaker_wav with
  | none => fallback
  | some s =>
    let s' := pyStrip isPyWS s
    if s'.isEmpty then fallback
    else
      let sp := if fs.isAbs s' then s' else joinBase s'
      if fs.isFile sp then some sp else fallback

/-! ### xtts /tts endpoint (xtts_server.py lines 132-359).  The external
tts.tts call is an oracle taking the language and the prepared text (the
recovery path re-invokes it with a simplified text); its outcome is a wave,
an IndexError, a RuntimeError (with or without an index/assert/cuda message),
or another exception. -/

inductive SynthRes
  | ok (wav : List ℚ)
  | errIndex
  | errRte (cudaLike : Bool)
  | errOther
deriving DecidableEq

/-- Which return site of tts_endpoint produced the response. -/
inductive XOut
  | emptyText | sanitizeShort | fewWords | truncShort | noSpeaker | speakerGone
  | preValFail | genStripEmpty | innerIndex | innerOther | retryFail | rteNonCuda
  | emptyWav | success
deriving DecidableEq

/-- Response of the xtts endpoint: byte payload, number of tts.tts
invocations, and the return site. -/
structure XRes where
  bytes : List Nat
  synthCalls : Nat
  out : XOut
deriving DecidableEq

structure XReq where
  text : List Char
  language : List Char
  speaker_wav : Option (List Char)

def SUPPORTED_LANGUAGES : List (List Char) :=
  ["en".toList, "es".toList, "fr".toList, "de".toList, "it".toList, "pt".toList,
   "pl".toList, "tr".toList, "ru".toList, "nl".toList, "cs".toList, "ar".toList,
   "zh-cn".toList, "ja".toList, "hu".toList, "ko".toList, "hi".toList]

/-- text[:200].rsplit(' ', 1)[0]: cut at the last space of the 200-character
window; if it contains no space the whole window is kept. -/
def rsplitCut (l : List Char) : List Char :=
  if ' ' ∈ l then ((l.reverse.dropWhile (fun c => !(c == ' '))).tail).reverse else l

/-- Lines 249-255: strip '.,!?;: ' from both ends; empty means a raised
ValueError (none); otherwise append '.' unless the text already ends in
terminal punctuation. -/
def prepForSynthesis (t : List Char) : Option (List Char) :=
  let t' := pyStrip isGenStrip t
  if t'.isEmpty then none
  else if isTermPunct (t'.getLastD ' ') then some t' else some (t' ++ ['.'])

/-- Lines 274-277: the recovery text re.sub(r'[^a-zA-Z0-9\s.]', '', text),
whitespace-normalized, with the "Hello world." fallback when too short. -/
def simplifyText (t : List Char) : List Char :=
  let s := t.filter (fun c => isAsciiAlnum c || isPyWS c || c == '.')
  let s' := joinSpace (pySplit s)
  if s'.length < 3 then "Hello world.".toList else s'

/-- Lines 312-328: empty wave gives silence, otherwise the wave is written
as the response. -/
def finishWav (wav : List ℚ) (calls : Nat) : XRes :=
  if wav.isEmpty then ⟨sfSil 2400, calls, .emptyWav⟩
  else ⟨sfWriteWav wav, calls, .success⟩

/-- A 0.1-second silent response from one of the endpoint's guard returns. -/
def xttsSilent (out : XOut) : XRes := ⟨sfSil 2400, 0, out⟩

/-- The generation block (lines 259-328): call tts.tts; on an
index/assert/cuda RuntimeError retry once with the simplified text (any
failure of the retry reaches the outer handlers: 0.1 s silence); an
IndexError or other exception from the first call hits the inner handlers
(0.2 s silence); an empty wave yields 0.1 s silence. -/
def xttsGenerate (synth : List Char → List Char → SynthRes)
    (lang text3 : List Char) : XRes :=
  match synth lang text3 with
  | .ok wav => finishWav wav 1
  | .errIndex => ⟨sfSil 4800, 1, .innerIndex⟩
  | .errOther => ⟨sfSil 4800, 1, .innerOther⟩
  | .errRte cudaLike =>
    if cudaLike then
      match synth lang (simplifyText text3) with
      | .ok wav => finishWav wav 2
      | _ => ⟨sfSil 2400, 2, .retryFail⟩
    else ⟨sfSil 2400, 1, .rteNonCuda⟩

/-- Lines 169-172: unsupported languages fall back to "en". -/
def normLang (language : List Char) : List Char :=
  let lang0 := language.map Char.toLower
  if lang0 ∈ SUPPORTED_LANGUAGES then lang0 else "en".toList

/-- Lines 175-178: texts longer than 200 characters are cut at the last word
boundary of the 200-character window. -/
def xttsTrunc (t : List Char) : List Char :=
  if 200 < t.length then rsplitCut (t.take 200) else t

/-- The guard cascade of tts_endpoint (lines 134-257): all validation and
resolution before the generation block, which is the continuation gen. -/
def xttsDispatch (fs : Fs) (req : XReq) (gen : List Char → List Char → XRes) : XRes :=
  let text0 := pyStrip isPyWS req.text
  if text0.isEmpty then xttsSilent .emptyText else
  let text1 := sanitize_text text0
  if text1.isEmpty ∨ (pyStrip isPyWS text1).length < 5 then xttsSilent .sanitizeShort else
  if ((pySplit text1).filter hasAlnum).length < 2 then xttsSilent .fewWords else
  let lang := normLang req.language
  let text2 := xttsTrunc text1
  if 200 < text1.length ∧ (pyStrip isPyWS text2).length < 10 then xttsSilent .truncShort else
  match resolve_speaker_path fs req.speaker_wav with
  | none => xttsSilent .noSpeaker
  | some sp =>
    if ¬ fs.isFile sp then xttsSilent .speakerGone else
    if (pyStrip isPyWS text2).isEmpty ∨ text2.countP isAsciiAlnum < 5 ∨
        ((pySplit text2).filter hasAlnum).length < 2 then xttsSilent .preValFail else
    match prepForSynthesis text2 with
    | none => xttsSilent .genStripEmpty
    | some text3 => gen lang text3

def xtts_endpoint (fs : Fs) (synth : List Char → List Char → SynthRes)
    (req : XReq) : XRes :=
  xttsDispatch fs req (xttsGenerate synth)

/-! ### piper /tts endpoint (piper_server.py lines 158-375) -/

def isDigitC (c : Char) : Bool := 48 ≤ c.toNat && c.toNat ≤ 57

/-- Digits with single underscores allowed between digits, as accepted by
Python's int(). -/
def parseDigitsAux : ℤ → List Char → Option ℤ
  | acc, [] => some acc
  | acc, c :: r =>
    if isDigitC c then parseDigitsAux (acc * 10 + (c.toNat - 48 : ℕ)) r
    else if c = '_' then
      match r with
      | [] => none
      | d :: r' =>
        if isDigitC d then parseDigitsAux (acc * 10 + (d.toNat - 48 : ℕ)) r'
        else none
    else none

def parseDigits : List Char → Option ℤ
  | [] => none
  | c :: r => if isDigitC c then parseDigitsAux ((c.toNat - 48 : ℕ) : ℤ) r else none

/-- int(s) for a decimal string: surrounding whitespace, optional sign,
digits (underscore separators allowed); None models the raised ValueError. -/
def pyParseInt (s : List Char) : Option ℤ :=
  match pyStrip isPyWS s with
  | '+' :: ds => parseDigits ds
  | '-' :: ds => (parseDigits ds).map Neg.neg
  | ds => parseDigits ds

/-- Lines 171-187: explicit speaker_id, else speaker parsed as an integer
(parse failure keeps None), else default 0; finally clamped by
max(0, min(903, speaker_id)). -/
def determine_speaker_id (sid : Option ℤ) (speaker : Option (List Char)) : ℤ :=
  let chosen : Option ℤ :=
    match sid with
    | some i => some i
    | none =>
      match speaker with
      | some s => pyParseInt s
      | none => none
  max 0 (min 903 (chosen.getD 0))

/-- Line 190-191: length_scale defaulted to 1.0 and clamped to [0.1, 3.0].
It is passed to the synthesis oracles and has no further observable effect. -/
def clampScale (ls : Option ℚ) : ℚ := max (1/10) (min 3 (ls.getD 1))

structure PReq where
  text : List Char
  speaker : Option (List Char)
  speaker_id : Option ℤ
  length_scale : Option ℚ

/-- Per-request outcomes of the external piper calls: each field is the
result of the one call the endpoint makes to it (error = a raised
exception caught at the corresponding boundary). -/
structure POracles where
  phonemizeRes : Except Unit (List (List Nat))
  hasIdsMethod : Bool
  phonemesToIds : Except Unit (List Nat)
  idsToAudCfg : Except Unit RawAud
  idsToAudNoCfg : Except Unit RawAud
  m1 : Except Unit (List Nat)
  m2 : Except Unit (List Nat)
  cfgOk : Bool

inductive POut
  | notLoaded | cfgFail | emptyText | tooShort | manualOk | m1Ok | m2Ok | exhausted
deriving DecidableEq

/-- Response of the piper endpoint: payload, per-strategy invocation counts,
the clamped speaker id handed to SynthesisConfig when the strategy phase was
reached, the text handed to the strategies, and the return site. -/
structure PRes where
  bytes : List Nat
  manualCalls : Nat
  m1Calls : Nat
  m2Calls : Nat
  usedSpeakerId : Option ℤ
  usedText : Option (List Char)
  out : POut
deriving DecidableEq

/-- Lines 236-242: phoneme_ids_to_audio with the config, falling back to the
configless call, None when both raise. -/
def manualAud (o : POracles) : Option RawAud :=
  match o.idsToAudCfg with
  | .ok a => some a
  | .error _ =>
    match o.idsToAudNoCfg with
    | .ok a => some a
    | .error _ => none

/-- Lines 217-304, the manual phoneme method: phonemize, require the
phonemes_to_ids attribute, convert, synthesize with the config (falling back
to the configless call), require nonempty audio, encode to a WAV whose total
size must exceed the 44-byte header. -/
def manualResult (sr : Nat) (o : POracles) : Option (List Nat) :=
  match o.phonemizeRes with
  | .error _ => none
  | .ok _ =>
    if ¬ o.hasIdsMethod then none else
    match o.phonemesToIds with
    | .error _ => none
    | .ok _ =>
      match manualAud o with
      | none => none
      | some a =>
        if rawNonempty a then
          if 44 < (wavBytes sr (encodeRawAud a)).length then
            some (wavBytes sr (encodeRawAud a))
          else none
        else none

/-- Lines 306-341, method 1 (synthesize_wav to a temp file): the resulting
file is the 44-byte header plus the frames written; it is returned only if
its size exceeds 44 bytes. -/
def m1Result (sr : Nat) (o : POracles) : Option (List Nat) :=
  match o.m1 with
  | .error _ => none
  | .ok frames => if 44 < 44 + frames.length then some (wavBytes sr frames) else none

/-- Lines 343-365, method 2 (basic synthesize into an in-memory WAV). -/
def m2Result (sr : Nat) (o : POracles) : Option (List Nat) :=
  match o.m2 with
  | .error _ => none
  | .ok frames =>
    if 44 < (wavBytes sr frames).length then some (wavBytes sr frames) else none

/-- A 0.1-second silent response from one of the endpoint's guard returns. -/
def piperSilent (out : POut) : PRes :=
  ⟨create_silent_wav (1/10), 0, 0, 0, none, none, out⟩

/-- The strategy chain (lines 217-369): manual phoneme method first, then
synthesize_wav, then basic synthesize; the first validated output is
returned, otherwise 0.1 s of silence. -/
def piperStrategies (sr : Nat) (o : POracles) (sid : ℤ) (t2 : List Char) : PRes :=
  match manualResult sr o with
  | some w => ⟨w, 1, 0, 0, some sid, some t2, .manualOk⟩
  | none =>
    match m1Result sr o with
    | some w => ⟨w, 1, 1, 0, some sid, some t2, .m1Ok⟩
    | none =>
      match m2Result sr o with
      | some w => ⟨w, 1, 1, 1, some sid, some t2, .m2Ok⟩
      | none => ⟨create_silent_wav (1/10), 1, 1, 1, some sid, some t2, .exhausted⟩

/-- Lines 167-169: texts longer than 2000 characters are truncated. -/
def truncate2000 (l : List Char) : List Char :=
  if 2000 < l.length then l.take 2000 else l

/-- tts_endpoint of piper_server.py.  sr is voice.config.sample_rate. -/
def piper_endpoint (voiceLoaded : Bool) (sr : Nat) (o : POracles) (req : PReq) : PRes :=
  if ¬ voiceLoaded then piperSilent .notLoaded else
  let t1 := truncate2000 (pyStrip isPyWS req.text)
  let sid := determine_speaker_id req.speaker_id req.speaker
  if ¬ o.cfgOk then piperSilent .cfgFail else
  if t1.isEmpty then piperSilent .emptyText else
  let t2 := pyStrip isPyWS t1
  if t2.length < 2 then piperSilent .tooShort else
  piperStrategies sr o sid t2

/-! ### Basic container lemmas -/

theorem wavHeader_length (rate dataLen : Nat) : (wavHeader rate dataLen).length = 44 := by
  simp [wavHeader, le16, le32]

theorem wavBytes_length (rate : Nat) (data : List Nat) :
    (wavBytes rate data).length = 44 + data.length := by
  simp [wavBytes, wavHeader_length]

theorem int16sToBytes_length (l : List ℤ) : (int16sToBytes l).length = 2 * l.length := by
  induction l with
  | nil => rfl
  | cons i r ih => simp [int16sToBytes, int16LE, le16, ih]; omega

theorem wavBytes_drop_header (rate : Nat) (data : List Nat) :
    (wavBytes rate data).drop 44 = data := by
  have h := wavHeader_length rate data.length
  rw [wavBytes, ← h, List.drop_left]

/-- Test fixture: every external piper call raises. -/
def oracleAllFail : POracles :=
  ⟨.error (), false, .error (), .error (), .error (), .error (), .error (), true⟩

/-! ### Shape lemmas for the endpoints -/

theorem pyStrip_no (p : Char → Bool) (l : List Char) (h : ∀ c ∈ l, ¬ p c = true) :
    pyStrip p l = l := by
  have hdrop : ∀ m : List Char, (∀ c ∈ m, ¬ p c = true) → m.dropWhile p = m := by
    intro m hm
    cases m with
    | nil => rfl
    | cons c r =>
      rw [List.dropWhile_cons_of_neg]
      simp [hm c (List.mem_cons_self c r)]
  unfold pyStrip stripRight stripLeft
  rw [hdrop l h, hdrop l.reverse (fun c hc => h c (List.mem_reverse.mp hc)), List.reverse_reverse]

theorem pyStrip_length_le (p : Char → Bool) (l : List Char) :
    (pyStrip p l).length ≤ l.length := by
  unfold pyStrip stripRight stripLeft
  calc ((l.dropWhile p).reverse.dropWhile p).reverse.length
      = ((l.dropWhile p).reverse.dropWhile p).length := List.length_reverse _
    _ ≤ (l.dropWhile p).reverse.length := (List.dropWhile_sublist _).length_le
    _ = (l.dropWhile p).length := List.length_reverse _
    _ ≤ l.length := (List.dropWhile_sublist _).length_le

theorem piperUsedText_le (l : List Char) :
    (pyStrip isPyWS (truncate2000 l)).length ≤ 2000 := by
  refine le_trans (pyStrip_length_le _ _) ?_
  unfold truncate2000
  split
  · simp [List.length_take]
  · omega

/-- Every piper response is either one of the guard silences or the outcome
of the strategy chain run on the clamped speaker id and the (≤ 2000
character) prepared text. -/
theorem piper_cases (vl : Bool) (sr : Nat) (o : POracles) (req : PReq) :
    (∃ out, piper_endpoint vl sr o req = piperSilent out) ∨
    (∃ t2, t2.length ≤ 2000 ∧
      piper_endpoint vl sr o req =
        piperStrategies sr o (determine_speaker_id req.speaker_id req.speaker) t2) := by
  simp only [piper_endpoint]
  split
  · exact Or.inl ⟨_, rfl⟩
  · split
    · exact Or.inl ⟨_, rfl⟩
    · split
      · exact Or.inl ⟨_, rfl⟩
      · split
        · exact Or.inl ⟨_, rfl⟩
        · exact Or.inr ⟨_, piperUsedText_le _, rfl⟩

theorem piperStrategies_usedSpeakerId (sr : Nat) (o : POracles) (sid : ℤ) (t2 : List Char) :
    (piperStrategies sr o sid t2).usedSpeakerId = some sid := by
  unfold piperStrategies
  split
  · rfl
  · split
    · rfl
    · split <;> rfl

theorem piperStrategies_usedText (sr : Nat) (o : POracles) (sid : ℤ) (t2 : List Char) :
    (piperStrategies sr o sid t2).usedText = some t2 := by
  unfold piperStrategies
  split
  · rfl
  · split
    · rfl
    · split <;> rfl

theorem piperStrategies_manualCalls (sr : Nat) (o : POracles) (sid : ℤ) (t2 : List Char) :
    (piperStrategies sr o sid t2).manualCalls = 1 := by
  unfold piperStrategies
  split
  · rfl
  · split
    · rfl
    · split <;> rfl

/-! ### Evaluation lemmas for the rational-valued helpers (the field
instances of ℚ do not reduce inside the kernel, so concrete values are
established through norm_num instead of decide). -/

theorem qTrunc_eq_floor {x : ℚ} (h : 0 ≤ x) : qTrunc x = ⌊x⌋ := by
  unfold qTrunc; rw [if_neg (not_lt.mpr h)]

theorem qTrunc_eq_ceil {x : ℚ} (h : x < 0) : qTrunc x = ⌈x⌉ := by
  unfold qTrunc; rw [if_pos h]

theorem floatToI16_one : floatToI16 1 = 32767 := by
  have hc : clip1 (1 : ℚ) = 1 := by unfold clip1; norm_num [max_def, min_def]
  rw [floatToI16, hc, one_mul, qTrunc_eq_floor (by norm_num)]
  norm_num

theorem floatToI16_negOne : floatToI16 (-1) = -32767 := by
  have hc : clip1 (-1 : ℚ) = -1 := by unfold clip1; norm_num [max_def, min_def]
  have hm : (-1 : ℚ) * 32767 = ((-32767 : ℤ) : ℚ) := by norm_num
  rw [floatToI16, hc, hm, qTrunc_eq_ceil (by norm_num), Int.ceil_intCast]

theorem floatToI16_zero : floatToI16 0 = 0 := by
  have hc : clip1 (0 : ℚ) = 0 := by unfold clip1; norm_num [max_def, min_def]
  rw [floatToI16, hc, zero_mul, qTrunc_eq_floor le_rfl]
  norm_num

theorem floatToI16_half : floatToI16 (1/2) = 16383 := by
  have hc : clip1 (1/2 : ℚ) = 1/2 := by unfold clip1; norm_num [max_def, min_def]
  rw [floatToI16, hc, qTrunc_eq_floor (by norm_num)]
  norm_num

theorem silentSampleCount_tenth : silentSampleCount (1/10) = 2205 := by
  rw [silentSampleCount, qTrunc_eq_floor (by norm_num)]
  have h : ⌊(22050 : ℚ) * (1/10)⌋ = 2205 := by norm_num
  rw [h]
  rfl

/-! ## C3 — encoder numeric normalization.
The code truncates toward zero ((clamped * 32767).astype(np.int16)); the
claim's "rounded to nearest" fails at sample 0.5 (code: 16383, nearest:
16384).  The boundary samples 1.0 / -1.0 / 0.0 and the int16 / raw-bytes
pass-throughs behave as claimed. -/

/-- C3: the claim's round-to-nearest rule disagrees with the code's
truncation at the sample 0.5: truncation yields 16383, rounding yields
16384, so the encoded bytes differ. -/
theorem c3_counterexample :
    encodeRawAud (RawAud.fl [1/2]) ≠ int16sToBytes [floatToI16SpecRound (1/2)] := by
  have hs : floatToI16SpecRound (1/2) = 16384 := by
    have hc : clip1 (1/2 : ℚ) = 1/2 := by unfold clip1; norm_num [max_def, min_def]
    rw [floatToI16SpecRound, hc]
    norm_num [round_eq]
  have hcode : encodeRawAud (RawAud.fl [1/2]) = int16sToBytes [16383] := by
    simp only [encodeRawAud, List.map_cons, List.map_nil, floatToI16_half]
  rw [hcode, hs]
  decide

/-- C3 (amended): encode clamps float samples to [-1, 1], scales by 32767 and
truncates toward zero (not round-to-nearest): [1,-1,0] encodes to
[32767,-32767,0], 0.5 encodes to 16383, every float sample lands in
[-32767, 32767] (no overflow wrap), int16 samples pass through unchanged, and
non-array data passes through as raw bytes. -/
theorem c3_amended :
    encodeRawAud (RawAud.fl [1, -1, 0]) = int16sToBytes [32767, -32767, 0] ∧
    floatToI16 (1/2) = 16383 ∧
    (∀ x : ℚ, -32767 ≤ floatToI16 x ∧ floatToI16 x ≤ 32767) ∧
    (∀ xs : List ℤ, encodeRawAud (RawAud.i16 xs) = int16sToBytes xs) ∧
    (∀ bs : List Nat, encodeRawAud (RawAud.blob bs) = bs) := by
  refine ⟨?_, floatToI16_half, ?_, fun xs => rfl, fun bs => rfl⟩
  · simp [encodeRawAud, floatToI16_one, floatToI16_negOne, floatToI16_zero]
  intro x
  have hlo : (-1 : ℚ) ≤ clip1 x := le_max_left _ _
  have hhi : clip1 x ≤ 1 := max_le (by norm_num) (min_le_left _ _)
  have hplo : (-32767 : ℚ) ≤ clip1 x * 32767 := by nlinarith
  have hphi : clip1 x * 32767 ≤ 32767 := by nlinarith
  unfold floatToI16 qTrunc
  split
  · constructor
    · have h1 : ((-32767 : ℤ) : ℚ) ≤ clip1 x * 32767 := by push_cast; exact hplo
      calc (-32767 : ℤ) = ⌈((-32767 : ℤ) : ℚ)⌉ := (Int.ceil_intCast _).symm
        _ ≤ ⌈clip1 x * 32767⌉ := Int.ceil_le_ceil h1
    · have h0 : ⌈clip1 x * 32767⌉ ≤ ⌈(0 : ℚ)⌉ :=
        Int.ceil_le_ceil (le_of_lt (by assumption))
      simp only [Int.ceil_zero] at h0
      omega
  · constructor
    · have h0 : (0 : ℤ) ≤ ⌊clip1 x * 32767⌋ := Int.floor_nonneg.mpr (not_lt.mp (by assumption))
      omega
    · have h1 : clip1 x * 32767 ≤ ((32767 : ℤ) : ℚ) := by push_cast; exact hphi
      calc ⌊clip1 x * 32767⌋ ≤ ⌊((32767 : ℤ) : ℚ)⌋ := Int.floor_le_floor h1
        _ = 32767 := Int.floor_intCast _

/-! ## C8 — silence generator shape.
create_silent_wav computes int(22050 * d) samples: int() truncates (the
claim's round() disagrees at d = 0.0003), and the sample rate is the
hardcoded 22050 (the function takes no rate argument). -/

/-- C8: at duration 0.0003 the code produces int(6.615) = 6 samples, not
round(6.615) = 7 as claimed. -/
theorem c8_counterexample :
    (silentSampleCount (3/10000) : ℤ) ≠ round ((22050 : ℚ) * (3/10000)) := by
  have h1 : silentSampleCount (3/10000) = 6 := by
    rw [silentSampleCount, qTrunc_eq_floor (by norm_num)]
    have h : ⌊(22050 : ℚ) * (3/10000)⌋ = 6 := by norm_num
    rw [h]
    rfl
  have h2 : round ((22050 : ℚ) * (3/10000)) = 7 := by norm_num [round_eq]
  rw [h1, h2]
  decide

/-- C8 (amended): generate(d) produces int(22050 * d) zero samples (truncation
toward zero, at the hardcoded rate 22050); generate(0.1) yields exactly 2205
zero samples, the container is the canonical header plus 2 bytes per sample,
and the payload is all zero bytes. -/
theorem c8_amended :
    silentSampleCount (1/10) = 2205 ∧
    create_silent_wav (1/10) = wavBytes 22050 (List.replicate 4410 0) ∧
    (∀ d : ℚ, (create_silent_wav d).length = 44 + 2 * silentSampleCount d) ∧
    (∀ d : ℚ, ∀ b ∈ (create_silent_wav d).drop 44, b = 0) := by
  refine ⟨silentSampleCount_tenth, ?_, ?_, ?_⟩
  · rw [create_silent_wav, silentSampleCount_tenth]
  · intro d
    rw [create_silent_wav, wavBytes_length, List.length_replicate]
  · intro d b hb
    rw [create_silent_wav, wavBytes_drop_header] at hb
    exact List.eq_of_mem_replicate hb

/-! ## C10 — speaker ID clamping (piper_server.py lines 171-187). -/

theorem determine_bounds (sid : Option ℤ) (sp : Option (List Char)) :
    0 ≤ determine_speaker_id sid sp ∧ determine_speaker_id sid sp ≤ 903 := by
  unfold determine_speaker_id
  exact ⟨le_max_left 0 _, max_le (by norm_num) (min_le_left _ _)⟩

/-- C10: an explicit numeric speaker ID is clamped into [0, 903]
(5000 resolves to 903, -5 to 0), and whenever the endpoint reaches the
strategy phase the speaker ID put into SynthesisConfig lies within [0, 903]. -/
theorem c10_speaker_clamp :
    determine_speaker_id (some 5000) none = 903 ∧
    determine_speaker_id (some (-5)) none = 0 ∧
    (∀ sid sp, 0 ≤ determine_speaker_id sid sp ∧ determine_speaker_id sid sp ≤ 903) ∧
    (∀ vl sr o req s, (piper_endpoint vl sr o req).usedSpeakerId = some s →
      0 ≤ s ∧ s ≤ 903) := by
  refine ⟨by decide, by decide, determine_bounds, ?_⟩
  intro vl sr o req s h
  rcases piper_cases vl sr o req with ⟨out, he⟩ | ⟨t2, -, he⟩
  · rw [he] at h
    exact absurd h (by simp [piperSilent])
  · rw [he, piperStrategies_usedSpeakerId] at h
    exact Option.some_inj.mp h ▸ determine_bounds req.speaker_id req.speaker

/-- Witness for C10's conditional part at a concrete request (text "ab",
no speaker given, all strategies failing: the clamped default ID 0 is used). -/
theorem c10_witness : 0 ≤ (0 : ℤ) ∧ (0 : ℤ) ≤ 903 :=
  c10_speaker_clamp.2.2.2 true 22050 oracleAllFail
    ⟨['a', 'b'], none, none, none⟩ 0 (by decide)

/-! ## C5 — sanitizer rejection boundary.
The behavioural boundary claims hold of sanitize_text ("Hi" rejected, 5
characters / 2 tokens accepted, accepted output always within [5, 200]), but
the [min, max] window is hardcoded inside sanitize_text, not supplied as a
parameter, and the lower-fidelity (piper) server does not reject
out-of-window text at all: it truncates to 2000 characters and proceeds. -/

/-- The 2001-character request reaches the strategy chain with the truncated
2000-character text. -/
theorem piper_long_input :
    piper_endpoint true 22050 oracleAllFail
      ⟨List.replicate 2001 'a', none, none, none⟩ =
      piperStrategies 22050 oracleAllFail 0 (List.replicate 2000 'a') := by
  have hmem : ∀ c ∈ List.replicate 2001 'a', ¬ isPyWS c = true := by
    intro c hc
    rw [List.eq_of_mem_replicate hc]
    decide
  have hmem2 : ∀ c ∈ List.replicate 2000 'a', ¬ isPyWS c = true := by
    intro c hc
    rw [List.eq_of_mem_replicate hc]
    decide
  have h1 : pyStrip isPyWS (List.replicate 2001 'a') = List.replicate 2001 'a' :=
    pyStrip_no _ _ hmem
  have h2 : truncate2000 (List.replicate 2001 'a') = List.replicate 2000 'a' := by
    unfold truncate2000
    rw [if_pos (by rw [List.length_replicate]; norm_num), List.take_replicate]
    congr 1
  have h3 : pyStrip isPyWS (List.replicate 2000 'a') = List.replicate 2000 'a' :=
    pyStrip_no _ _ hmem2
  have hsid : determine_speaker_id none none = 0 := by decide
  have hemp : (List.replicate 2000 'a').isEmpty = false := by
    rw [show (2000 : Nat) = 1999 + 1 from rfl, List.replicate_succ]
    rfl
  simp only [piper_endpoint, oracleAllFail, h1, h2, h3, hsid, hemp,
    List.length_replicate]
  norm_num

/-- C5: a 2001-character text is not rejected by the lower-fidelity path as
the parameterized-window reading requires: piper truncates it to 2000
characters and still invokes the first synthesis strategy. -/
theorem c5_counterexample :
    (piper_endpoint true 22050 oracleAllFail
      ⟨List.replicate 2001 'a', none, none, none⟩).manualCalls = 1 ∧
    (piper_endpoint true 22050 oracleAllFail
      ⟨List.replicate 2001 'a', none, none, none⟩).usedText =
      some (List.replicate 2000 'a') := by
  rw [piper_long_input]
  exact ⟨rfl, rfl⟩

/-- The final length window of sanitize_text: whatever is not rejected has
length in [5, 200]. -/
theorem sanitize_length_window (t : List Char) :
    sanitize_text t = [] ∨
    (5 ≤ (sanitize_text t).length ∧ (sanitize_text t).length ≤ 200) := by
  simp only [sanitize_text]
  split
  · exact Or.inl rfl
  · split
    · exact Or.inl rfl
    · split
      · exact Or.inl rfl
      · split
        · exact Or.inl rfl
        · rename_i h5 h200
          exact Or.inr ⟨by omega, by omega⟩

/-- C5 (amended): sanitize_text rejects the single word "Hi", accepts the
5-character two-token "ab cd", and every accepted output has length within
the [5, 200] window — but the window is hardcoded in sanitize_text (which
takes only the text), and the lower-fidelity piper path enforces its 2000
bound by truncation rather than rejection: the text handed to its strategies
is never longer than 2000. -/
theorem c5_amended :
    sanitize_text ['H', 'i'] = [] ∧
    sanitize_text "ab cd".toList = "ab cd".toList ∧
    (∀ t, sanitize_text t ≠ [] →
      5 ≤ (sanitize_text t).length ∧ (sanitize_text t).length ≤ 200) ∧
    (∀ vl sr o req u, (piper_endpoint vl sr o req).usedText = some u →
      u.length ≤ 2000) := by
  refine ⟨by decide, by decide, ?_, ?_⟩
  · intro t h
    rcases sanitize_length_window t with h0 | hw
    · exact absurd h0 h
    · exact hw
  · intro vl sr o req u h
    rcases piper_cases vl sr o req with ⟨out, he⟩ | ⟨t2, hlen, he⟩
    · rw [he] at h
      exact absurd h (by simp [piperSilent])
    · rw [he, piperStrategies_usedText] at h
      exact Option.some_inj.mp h ▸ hlen

/-- Witness for C5's conditional parts: the accepted "ab cd" lies in [5,200],
and the truncated 2000-character piper text obeys the 2000 bound. -/
theorem c5_witness :
    (5 ≤ (sanitize_text "ab cd".toList).length ∧
      (sanitize_text "ab cd".toList).length ≤ 200) ∧
    (List.replicate 2000 'a').length ≤ 2000 :=
  ⟨c5_amended.2.2.1 "ab cd".toList (by decide),
   c5_amended.2.2.2 true 22050 oracleAllFail
     ⟨List.replicate 2001 'a', none, none, none⟩ _
     (by rw [piper_long_input]; rfl)⟩

/-! ## C6 — terminal punctuation.
sanitize_text itself does not append terminal punctuation (it even strips it
from word ends): the '.' append lives in the endpoint's pre-generation step
(lines 249-255), so the text sent to synthesis always ends in '.', '!' or
'?', but the sanitizer's output need not. -/

/-- C6: "ab cd" is accepted by sanitize_text yet its output does not end in
terminal punctuation, refuting the claim that sanitize's result always does. -/
theorem c6_counterexample :
    sanitize_text "ab cd".toList ≠ [] ∧
    ¬ isTermPunct ((sanitize_text "ab cd".toList).getLastD ' ') = true := by
  decide

/-- C6 (amended): the terminal-punctuation guarantee is established by the
endpoint's pre-generation cleanup, not by sanitize_text: whenever that step
succeeds, the text actually handed to the synthesis engine is nonempty and
ends in '.', '!' or '?' (a '.' is appended when needed). -/
theorem c6_amended :
    ∀ t u, prepForSynthesis t = some u → u ≠ [] ∧ isTermPunct (u.getLastD ' ') = true := by
  intro t u h
  simp only [prepForSynthesis] at h
  split at h
  · simp at h
  · rename_i hne
    split at h
    · rename_i hterm
      obtain rfl := Option.some_inj.mp h
      refine ⟨fun hu => hne ?_, hterm⟩
      rw [hu]
      rfl
    · obtain rfl := Option.some_inj.mp h
      refine ⟨by simp, ?_⟩
      rw [List.getLastD_concat]
      rfl

/-- Witness for C6 at the concrete text "xy": the prepared text is "xy.". -/
theorem c6_witness :
    ("xy.".toList ≠ [] ∧ isTermPunct (("xy.".toList).getLastD ' ') = true) :=
  c6_amended "xy".toList "xy.".toList (by decide)


/-! ### Shape lemmas for the xtts endpoint and strategy chains -/

theorem ne_nil_of_not_isEmpty {l : List ℚ} (h : ¬ l.isEmpty = true) : l ≠ [] := by
  cases l with
  | nil => exact absurd rfl h
  | cons c r => exact List.cons_ne_nil c r

theorem isWavPayload_length {b : List Nat} (h : IsWavPayload b) : 44 < b.length := by
  obtain ⟨rate, data, rfl, hne⟩ := h
  rw [wavBytes_length]
  have := List.length_pos.mpr hne
  omega

theorem sfWriteWav_isWav {xs : List ℚ} (h : xs ≠ []) : IsWavPayload (sfWriteWav xs) := by
  refine ⟨24000, _, rfl, ?_⟩
  intro hc
  have := congrArg List.length hc
  rw [int16sToBytes_length, List.length_map] at this
  simp at this
  exact h this

theorem sfSil_isWav (n : Nat) (h : n ≠ 0) : IsWavPayload (sfSil n) := by
  refine sfWriteWav_isWav ?_
  intro hc
  have := congrArg List.length hc
  rw [List.length_replicate] at this
  simp at this
  exact h this

theorem csw_tenth_isWav : IsWavPayload (create_silent_wav (1/10)) := by
  refine ⟨22050, _, rfl, ?_⟩
  rw [silentSampleCount_tenth]
  intro hc
  have := congrArg List.length hc
  rw [List.length_replicate] at this
  simp at this

/-- Every xtts response is one of the guard silences (whose outcome is never
a generation outcome) or an outcome of the generation block. -/
theorem xtts_cases (fs : Fs) (synth : List Char → List Char → SynthRes) (req : XReq) :
    (∃ out, xtts_endpoint fs synth req = xttsSilent out ∧
      out ≠ .success ∧ out ≠ .innerIndex ∧ out ≠ .innerOther) ∨
    (∃ lang t3, xtts_endpoint fs synth req = xttsGenerate synth lang t3) := by
  unfold xtts_endpoint
  simp only [xttsDispatch]
  split
  · exact Or.inl ⟨_, rfl, by decide, by decide, by decide⟩
  · split
    · exact Or.inl ⟨_, rfl, by decide, by decide, by decide⟩
    · split
      · exact Or.inl ⟨_, rfl, by decide, by decide, by decide⟩
      · split
        · exact Or.inl ⟨_, rfl, by decide, by decide, by decide⟩
        · split
          · exact Or.inl ⟨_, rfl, by decide, by decide, by decide⟩
          · split
            · exact Or.inl ⟨_, rfl, by decide, by decide, by decide⟩
            · split
              · exact Or.inl ⟨_, rfl, by decide, by decide, by decide⟩
              · split
                · exact Or.inl ⟨_, rfl, by decide, by decide, by decide⟩
                · exact Or.inr ⟨_, _, rfl⟩

/-- The generation block's possible (outcome, payload) pairs: real audio on
success, 0.2 s silence for the two inner handlers, 0.1 s silence otherwise. -/
theorem xttsGenerate_shape (synth : List Char → List Char → SynthRes)
    (lang t3 : List Char) :
    ((xttsGenerate synth lang t3).out = .success ∧
      ∃ wav, wav ≠ [] ∧ (xttsGenerate synth lang t3).bytes = sfWriteWav wav) ∨
    ((xttsGenerate synth lang t3).out = .emptyWav ∧
      (xttsGenerate synth lang t3).bytes = sfSil 2400) ∨
    ((xttsGenerate synth lang t3).out = .innerIndex ∧
      (xttsGenerate synth lang t3).bytes = sfSil 4800) ∨
    ((xttsGenerate synth lang t3).out = .innerOther ∧
      (xttsGenerate synth lang t3).bytes = sfSil 4800) ∨
    ((xttsGenerate synth lang t3).out = .retryFail ∧
      (xttsGenerate synth lang t3).bytes = sfSil 2400) ∨
    ((xttsGenerate synth lang t3).out = .rteNonCuda ∧
      (xttsGenerate synth lang t3).bytes = sfSil 2400) := by
  unfold xttsGenerate
  split
  · rename_i wav _
    unfold finishWav
    split
    · exact Or.inr (Or.inl ⟨rfl, rfl⟩)
    · rename_i hne
      exact Or.inl ⟨rfl, wav, ne_nil_of_not_isEmpty hne, rfl⟩
  · exact Or.inr (Or.inr (Or.inl ⟨rfl, rfl⟩))
  · exact Or.inr (Or.inr (Or.inr (Or.inl ⟨rfl, rfl⟩)))
  · split
    · split
      · rename_i wav _
        unfold finishWav
        split
        · exact Or.inr (Or.inl ⟨rfl, rfl⟩)
        · rename_i hne
          exact Or.inl ⟨rfl, wav, ne_nil_of_not_isEmpty hne, rfl⟩
      all_goals exact Or.inr (Or.inr (Or.inr (Or.inr (Or.inl ⟨rfl, rfl⟩))))
    · exact Or.inr (Or.inr (Or.inr (Or.inr (Or.inr ⟨rfl, rfl⟩))))

theorem manualResult_isWav {sr : Nat} {o : POracles} {w : List Nat}
    (h : manualResult sr o = some w) : IsWavPayload w := by
  unfold manualResult at h
  split at h
  · simp at h
  · split at h
    · simp at h
    · split at h
      · simp at h
      · split at h
        · simp at h
        · rename_i a ha
          split at h
          · split at h
            · rename_i hlen
              obtain rfl := Option.some_inj.mp h
              refine ⟨sr, encodeRawAud a, rfl, ?_⟩
              rw [wavBytes_length] at hlen
              intro hc
              rw [hc] at hlen
              simp at hlen
            · simp at h
          · simp at h

theorem manualResult_ignores (sr : Nat) (ph : Except Unit (List (List Nat)))
    (hi : Bool) (pti : Except Unit (List Nat)) (ac anc : Except Unit RawAud)
    (m1a m2a m1b m2b : Except Unit (List Nat)) (cfga cfgb : Bool) :
    manualResult sr ⟨ph, hi, pti, ac, anc, m1a, m2a, cfga⟩ =
      manualResult sr ⟨ph, hi, pti, ac, anc, m1b, m2b, cfgb⟩ := rfl

theorem m1Result_isWav {sr : Nat} {o : POracles} {w : List Nat}
    (h : m1Result sr o = some w) : IsWavPayload w := by
  unfold m1Result at h
  split at h
  · simp at h
  · rename_i frames hf
    split at h
    · rename_i hlen
      obtain rfl := Option.some_inj.mp h
      refine ⟨sr, frames, rfl, ?_⟩
      intro hc
      rw [hc] at hlen
      simp at hlen
    · simp at h

theorem m2Result_isWav {sr : Nat} {o : POracles} {w : List Nat}
    (h : m2Result sr o = some w) : IsWavPayload w := by
  unfold m2Result at h
  split at h
  · simp at h
  · rename_i frames hf
    split at h
    · rename_i hlen
      obtain rfl := Option.some_inj.mp h
      refine ⟨sr, frames, rfl, ?_⟩
      rw [wavBytes_length] at hlen
      intro hc
      rw [hc] at hlen
      simp at hlen
    · simp at h

/-- The strategy chain's possible (outcome, payload) pairs. -/
theorem piperStrategies_shape (sr : Nat) (o : POracles) (sid : ℤ) (t2 : List Char) :
    ((piperStrategies sr o sid t2).out = .manualOk ∧
      ∃ w, manualResult sr o = some w ∧ (piperStrategies sr o sid t2).bytes = w ∧
        (piperStrategies sr o sid t2).m1Calls = 0 ∧
        (piperStrategies sr o sid t2).m2Calls = 0) ∨
    ((piperStrategies sr o sid t2).out = .m1Ok ∧
      ∃ w, m1Result sr o = some w ∧ (piperStrategies sr o sid t2).bytes = w ∧
        (piperStrategies sr o sid t2).m2Calls = 0) ∨
    ((piperStrategies sr o sid t2).out = .m2Ok ∧
      ∃ w, m2Result sr o = some w ∧ (piperStrategies sr o sid t2).bytes = w) ∨
    ((piperStrategies sr o sid t2).out = .exhausted ∧
      (piperStrategies sr o sid t2).bytes = create_silent_wav (1/10)) := by
  unfold piperStrategies
  split
  · rename_i w hw
    exact Or.inl ⟨rfl, w, hw, rfl, rfl, rfl⟩
  · split
    · rename_i w hw
      exact Or.inr (Or.inl ⟨rfl, w, hw, rfl, rfl⟩)
    · split
      · rename_i w hw
        exact Or.inr (Or.inr (Or.inl ⟨rfl, w, hw, rfl⟩))
      · exact Or.inr (Or.inr (Or.inr ⟨rfl, rfl⟩))

/-! ## C1 — totality of the pipeline.
Every request to either endpoint produces a canonical PCM/WAV container with
a nonempty data chunk (hence more than 44 bytes), for every filesystem state
and every behaviour of the external synthesis calls — every fault is
absorbed into a silence response. -/

/-- C1: for every request and every oracle behaviour (including all
strategies failing or raising), both endpoints return a valid nonempty WAV
container of more than 44 bytes. -/
theorem c1_totality :
    (∀ fs synth req, IsWavPayload (xtts_endpoint fs synth req).bytes ∧
      44 < (xtts_endpoint fs synth req).bytes.length) ∧
    (∀ vl sr o req, IsWavPayload (piper_endpoint vl sr o req).bytes ∧
      44 < (piper_endpoint vl sr o req).bytes.length) := by
  constructor
  · intro fs synth req
    have hw : IsWavPayload (xtts_endpoint fs synth req).bytes := by
      rcases xtts_cases fs synth req with ⟨out, he, -, -, -⟩ | ⟨lang, t3, he⟩
      · rw [he]
        exact sfSil_isWav 2400 (by omega)
      · rw [he]
        rcases xttsGenerate_shape synth lang t3 with
          ⟨-, wav, hne, hb⟩ | ⟨-, hb⟩ | ⟨-, hb⟩ | ⟨-, hb⟩ | ⟨-, hb⟩ | ⟨-, hb⟩ <;> rw [hb]
        · exact sfWriteWav_isWav hne
        · exact sfSil_isWav 2400 (by omega)
        · exact sfSil_isWav 4800 (by omega)
        · exact sfSil_isWav 4800 (by omega)
        · exact sfSil_isWav 2400 (by omega)
        · exact sfSil_isWav 2400 (by omega)
    exact ⟨hw, isWavPayload_length hw⟩
  · intro vl sr o req
    have hw : IsWavPayload (piper_endpoint vl sr o req).bytes := by
      rcases piper_cases vl sr o req with ⟨out, he⟩ | ⟨t2, -, he⟩
      · rw [he]
        exact csw_tenth_isWav
      · rw [he]
        rcases piperStrategies_shape sr o (determine_speaker_id req.speaker_id req.speaker) t2
          with ⟨-, w, hm, hb, -, -⟩ | ⟨-, w, hm, hb, -⟩ | ⟨-, w, hm, hb⟩ | ⟨-, hb⟩ <;> rw [hb]
        · exact manualResult_isWav hm
        · exact m1Result_isWav hm
        · exact m2Result_isWav hm
        · exact csw_tenth_isWav
    exact ⟨hw, isWavPayload_length hw⟩

/-! ## C7 — skip on missing speaker capability (xtts_server.py lines 192-206). -/

/-- The guard cascade's result does not depend on the generation continuation
when speaker resolution yields none, and it is one of the silent guards. -/
theorem xttsDispatch_resolve_none (fs : Fs) (req : XReq)
    (gen gen' : List Char → List Char → XRes)
    (h : resolve_speaker_path fs req.speaker_wav = none) :
    xttsDispatch fs req gen = xttsDispatch fs req gen' ∧
    ∃ out, xttsDispatch fs req gen = xttsSilent out := by
  simp only [xttsDispatch]
  split
  · exact ⟨rfl, _, rfl⟩
  · split
    · exact ⟨rfl, _, rfl⟩
    · split
      · exact ⟨rfl, _, rfl⟩
      · split
        · exact ⟨rfl, _, rfl⟩
        · split
          · exact ⟨rfl, _, rfl⟩
          · rename_i sp heq
            rw [h] at heq
            exact absurd heq (by simp)

/-- C7: when speaker resolution yields no usable speaker, the synthesis
strategy is never invoked (zero tts.tts calls), the response is the 0.1 s
silence, and the endpoint's output is identical for every synthesis
capability. -/
theorem c7_skip_on_missing_speaker :
    ∀ fs synth synth' req, resolve_speaker_path fs req.speaker_wav = none →
      (xtts_endpoint fs synth req).synthCalls = 0 ∧
      (xtts_endpoint fs synth req).bytes = sfSil 2400 ∧
      xtts_endpoint fs synth req = xtts_endpoint fs synth' req := by
  intro fs synth synth' req h
  obtain ⟨heq, out, hsil⟩ :=
    xttsDispatch_resolve_none fs req (xttsGenerate synth) (xttsGenerate synth') h
  have hsil' : xtts_endpoint fs synth req = xttsSilent out := hsil
  refine ⟨?_, ?_, heq⟩ <;> rw [hsil'] <;> rfl

/-- Test fixtures: a filesystem with no files, one with every file, and two
always-failing synthesis capabilities. -/
def fsNone : Fs := ⟨fun _ => false, fun _ => false⟩

def fsAll : Fs := ⟨fun _ => true, fun _ => true⟩

def synthIdxErr : List Char → List Char → SynthRes := fun _ _ => SynthRes.errIndex

def synthOtherErr : List Char → List Char → SynthRes := fun _ _ => SynthRes.errOther

def reqHello : XReq := ⟨"Hello there".toList, "en".toList, none⟩

/-- Witness for C7 at a concrete request: with no speaker file anywhere, the
endpoint makes no synthesis call, emits 0.1 s of silence, and two different
synthesis capabilities give the identical response. -/
theorem c7_witness :
    (xtts_endpoint fsNone synthIdxErr reqHello).synthCalls = 0 ∧
    (xtts_endpoint fsNone synthIdxErr reqHello).bytes = sfSil 2400 ∧
    xtts_endpoint fsNone synthIdxErr reqHello = xtts_endpoint fsNone synthOtherErr reqHello :=
  c7_skip_on_missing_speaker fsNone synthIdxErr synthOtherErr reqHello (by decide)

/-! ## C9 — silence-fallback durations.
The piper endpoint and most xtts paths degrade to 0.1 s of silence, but the
two in-generation xtts handlers (IndexError and non-RuntimeError exceptions
from the model call, lines 294-310) emit 0.2 s (4800 samples at 24000 Hz),
so the degrade duration is not the same on every path. -/

theorem sfSil_length (n : Nat) : (sfSil n).length = 44 + 2 * n := by
  unfold sfSil sfWriteWav
  rw [wavBytes_length, int16sToBytes_length, List.length_map, List.length_replicate]

/-- C9: a request whose synthesis call raises IndexError receives 0.2 s of
silence (4800 samples), not the claimed fixed 0.1 s (2400 samples). -/
theorem c9_counterexample :
    (xtts_endpoint fsAll synthIdxErr reqHello).out = XOut.innerIndex ∧
    (xtts_endpoint fsAll synthIdxErr reqHello).bytes = sfSil 4800 ∧
    sfSil 4800 ≠ sfSil 2400 := by
  refine ⟨by decide, rfl, ?_⟩
  intro hc
  have hlen := congrArg List.length hc
  rw [sfSil_length, sfSil_length] at hlen
  omega

/-- C9 (amended): every piper degradation path emits the fixed 0.1 s silence,
and every xtts degradation path emits the fixed 0.1 s silence (2400 samples
at 24000 Hz) except the two in-generation handlers (IndexError / other
exception from the model call), which emit 0.2 s (4800 samples). -/
theorem c9_silence_durations :
    (∀ vl sr o req,
      (piper_endpoint vl sr o req).out ≠ POut.manualOk →
      (piper_endpoint vl sr o req).out ≠ POut.m1Ok →
      (piper_endpoint vl sr o req).out ≠ POut.m2Ok →
      (piper_endpoint vl sr o req).bytes = create_silent_wav (1/10)) ∧
    (∀ fs synth req,
      ((xtts_endpoint fs synth req).out = XOut.innerIndex ∨
        (xtts_endpoint fs synth req).out = XOut.innerOther →
        (xtts_endpoint fs synth req).bytes = sfSil 4800) ∧
      ((xtts_endpoint fs synth req).out ≠ XOut.success →
        (xtts_endpoint fs synth req).out ≠ XOut.innerIndex →
        (xtts_endpoint fs synth req).out ≠ XOut.innerOther →
        (xtts_endpoint fs synth req).bytes = sfSil 2400)) := by
  constructor
  · intro vl sr o req h1 h2 h3
    rcases piper_cases vl sr o req with ⟨out, he⟩ | ⟨t2, -, he⟩
    · rw [he]
      rfl
    · rw [he] at h1 h2 h3 ⊢
      rcases piperStrategies_shape sr o (determine_speaker_id req.speaker_id req.speaker) t2
        with ⟨ho, -⟩ | ⟨ho, -⟩ | ⟨ho, -⟩ | ⟨-, hb⟩
      · exact absurd ho h1
      · exact absurd ho h2
      · exact absurd ho h3
      · exact hb
  · intro fs synth req
    rcases xtts_cases fs synth req with ⟨out, he, hs, hi, ho⟩ | ⟨lang, t3, he⟩
    · rw [he]
      constructor
      · intro hcase
        rcases hcase with hc | hc
        · exact absurd hc hi
        · exact absurd hc ho
      · intro _ _ _
        rfl
    · rw [he]
      rcases xttsGenerate_shape synth lang t3 with
        ⟨hout, wav, hne, hb⟩ | ⟨hout, hb⟩ | ⟨hout, hb⟩ | ⟨hout, hb⟩ | ⟨hout, hb⟩ |
        ⟨hout, hb⟩ <;> rw [hout]
      · exact ⟨fun hc => by rcases hc with hc | hc <;> exact absurd hc (by decide),
          fun h1 _ _ => absurd rfl h1⟩
      · exact ⟨fun hc => by rcases hc with hc | hc <;> exact absurd hc (by decide),
          fun _ _ _ => hb⟩
      · exact ⟨fun _ => hb, fun _ h2 _ => absurd rfl h2⟩
      · exact ⟨fun _ => hb, fun _ _ h3 => absurd rfl h3⟩
      · exact ⟨fun hc => by rcases hc with hc | hc <;> exact absurd hc (by decide),
          fun _ _ _ => hb⟩
      · exact ⟨fun hc => by rcases hc with hc | hc <;> exact absurd hc (by decide),
          fun _ _ _ => hb⟩

/-- Witness for C9: with all strategies failing, piper emits the 0.1 s
silence; with the model raising IndexError, xtts emits the 0.2 s silence. -/
theorem c9_witness :
    (piper_endpoint true 22050 oracleAllFail ⟨['a', 'b'], none, none, none⟩).bytes =
      create_silent_wav (1/10) ∧
    (xtts_endpoint fsAll synthIdxErr reqHello).bytes = sfSil 4800 :=
  ⟨c9_silence_durations.1 true 22050 oracleAllFail ⟨['a', 'b'], none, none, none⟩
      (by decide) (by decide) (by decide),
   (c9_silence_durations.2 fsAll synthIdxErr reqHello).1 (Or.inl (by decide))⟩

/-! ## C2 — first-success-wins in the piper strategy chain. -/

/-- Test fixture: the manual phoneme method succeeds with a one-sample
int16 wave; both fallback methods would raise. -/
def oracleManualOk : POracles :=
  ⟨.ok [], true, .ok [], .ok (RawAud.i16 [0]), .error (), .error (), .error (), true⟩

/-- Test fixture: the manual method raises at phonemize, synthesize_wav
writes two frame bytes. -/
def oracleM1Ok : POracles :=
  ⟨.error (), false, .error (), .error (), .error (), .ok [0, 0], .error (), true⟩

/-- C2: strategies run in the declared order (manual phoneme method,
synthesize_wav, basic synthesize).  If the manual method validates, its
encoded output is the response and neither later strategy is invoked
(invocation counts 0) — indeed the manual outcome is independent of what the
later strategies would do; if the manual method fails and synthesize_wav
validates, its output is the response and the last strategy is not invoked. -/
theorem c2_first_success_wins :
    (∀ vl sr o req w, manualResult sr o = some w →
      (piper_endpoint vl sr o req).manualCalls = 1 →
      (piper_endpoint vl sr o req).bytes = w ∧
      (piper_endpoint vl sr o req).m1Calls = 0 ∧
      (piper_endpoint vl sr o req).m2Calls = 0) ∧
    (∀ vl sr o req w, manualResult sr o = none → m1Result sr o = some w →
      (piper_endpoint vl sr o req).manualCalls = 1 →
      (piper_endpoint vl sr o req).bytes = w ∧
      (piper_endpoint vl sr o req).m2Calls = 0) ∧
    (∀ sr ph hi pti ac anc m1a m2a cfga m1b m2b cfgb sid t2 w,
      manualResult sr ⟨ph, hi, pti, ac, anc, m1a, m2a, cfga⟩ = some w →
      piperStrategies sr ⟨ph, hi, pti, ac, anc, m1b, m2b, cfgb⟩ sid t2 =
        ⟨w, 1, 0, 0, some sid, some t2, POut.manualOk⟩) := by
  refine ⟨?_, ?_, ?_⟩
  · intro vl sr o req w hw hcalls
    rcases piper_cases vl sr o req with ⟨out, he⟩ | ⟨t2, -, he⟩
    · rw [he] at hcalls
      exact absurd hcalls (by simp [piperSilent])
    · rw [he]
      simp only [piperStrategies, hw]
      exact ⟨trivial, trivial, trivial⟩
  · intro vl sr o req w hnone hw hcalls
    rcases piper_cases vl sr o req with ⟨out, he⟩ | ⟨t2, -, he⟩
    · rw [he] at hcalls
      exact absurd hcalls (by simp [piperSilent])
    · rw [he]
      simp only [piperStrategies, hnone, hw]
      exact ⟨trivial, trivial⟩
  · intro sr ph hi pti ac anc m1a m2a cfga m1b m2b cfgb sid t2 w hw
    rw [manualResult_ignores sr ph hi pti ac anc m1a m2a m1b m2b cfga cfgb] at hw
    simp only [piperStrategies, hw]

/-- Witness for C2 at concrete oracles: a successful manual method returns
its own WAV with zero fallback invocations; a failed manual method followed
by a successful synthesize_wav returns the latter's WAV without invoking the
last strategy. -/
theorem c2_witness :
    ((piper_endpoint true 22050 oracleManualOk ⟨['a', 'b'], none, none, none⟩).bytes =
        wavBytes 22050 (int16sToBytes [0]) ∧
      (piper_endpoint true 22050 oracleManualOk ⟨['a', 'b'], none, none, none⟩).m1Calls = 0 ∧
      (piper_endpoint true 22050 oracleManualOk ⟨['a', 'b'], none, none, none⟩).m2Calls = 0) ∧
    ((piper_endpoint true 22050 oracleM1Ok ⟨['a', 'b'], none, none, none⟩).bytes =
        wavBytes 22050 [0, 0] ∧
      (piper_endpoint true 22050 oracleM1Ok ⟨['a', 'b'], none, none, none⟩).m2Calls = 0) :=
  ⟨c2_first_success_wins.1 true 22050 oracleManualOk _ _ (by decide) (by decide),
   c2_first_success_wins.2.1 true 22050 oracleM1Ok _ _ (by decide) (by decide) (by decide)⟩

/-! ## C4 — sanitization idempotence.
sanitize(sanitize(x)) = sanitize(x) fails when the accepted output begins or
ends with '-' (which text.strip(' .,!?;:-') removes on the second pass but
which word.strip('.,!?') can re-expose on the first): "ab cd- ''" sanitizes
to "ab cd-", which sanitizes to "ab cd".  On every other accepted output the
second pass is the identity; the development below establishes this. -/

/-- C4: sanitize accepts "ab cd- ''" (producing "ab cd-") but a second
application changes it (to "ab cd"), refuting idempotence as claimed. -/
theorem c4_counterexample :
    sanitize_text "ab cd- ''".toList ≠ [] ∧
    sanitize_text (sanitize_text "ab cd- ''".toList) ≠ sanitize_text "ab cd- ''".toList := by
  constructor <;> decide

/-! ### Invariants of accepted sanitizer output -/

/-- No two adjacent [.,!?] characters. -/
def RelR (a b : Char) : Prop := ¬(isPunct a = true ∧ isPunct b = true)

/-- No two adjacent whitespace characters. -/
def RelS (a b : Char) : Prop := ¬(isPyWS a = true ∧ isPyWS b = true)

/-- No [.,!?] character directly after whitespace. -/
def RelW (a b : Char) : Prop := ¬(isPyWS a = true ∧ isPunct b = true)

/-- A character that can occur inside a word of accepted output: in the
allowed class of the character-class substitution and not whitespace. -/
def OkChar (c : Char) : Prop := isClassChar c = true ∧ isPyWS c = false

/-- A word of accepted sanitizer output: nonempty, made of OkChars, bearing
an alphanumeric character, with no [.,!?] at either end and no [.,!?] run. -/
def OkWord (w : List Char) : Prop :=
  w ≠ [] ∧ (∀ c ∈ w, OkChar c) ∧ (∃ c ∈ w, isAsciiAlnum c = true) ∧
  (∀ c, w.head? = some c → isPunct c = false) ∧
  (∀ c, w.getLast? = some c → isPunct c = false) ∧
  List.Chain' RelR w

/-- The shape of accepted sanitizer output: at least two OkWords joined by
single spaces. -/
def Shaped (y : List Char) : Prop :=
  ∃ ws : List (List Char), y = joinSpace ws ∧ 2 ≤ ws.length ∧ ∀ w ∈ ws, OkWord w

/-! ### Character-level helper lemmas -/

theorem punct_cases {c : Char} (h : isPunct c = true) :
    c = '.' ∨ c = ',' ∨ c = '!' ∨ c = '?' := by
  unfold isPunct at h
  simp only [Bool.or_eq_true, beq_iff_eq] at h
  tauto

theorem punct_not_ws {c : Char} (h : isPunct c = true) : isPyWS c = false := by
  rcases punct_cases h with rfl | rfl | rfl | rfl <;> decide

theorem alnum_not_punct {c : Char} (h : isAsciiAlnum c = true) : isPunct c = false := by
  cases hp : isPunct c
  · rfl
  · rcases punct_cases hp with rfl | rfl | rfl | rfl <;> exact absurd h (by decide)

theorem alnum_ranges {c : Char} (h : isAsciiAlnum c = true) :
    (48 ≤ c.toNat ∧ c.toNat ≤ 57) ∨ (65 ≤ c.toNat ∧ c.toNat ≤ 90) ∨
    (97 ≤ c.toNat ∧ c.toNat ≤ 122) := by
  unfold isAsciiAlnum at h
  simp only [Bool.or_eq_true, Bool.and_eq_true, decide_eq_true_eq] at h
  tauto

theorem okChar_ascii {c : Char} (h : OkChar c) :
    c.toNat < 128 ∧ pyPrintable c = true := by
  obtain ⟨hcl, hws⟩ := h
  unfold isClassChar at hcl
  simp only [Bool.or_eq_true, beq_iff_eq] at hcl
  rcases hcl with ((((((((h | h) | h) | h) | h) | h) | h) | h) | h)
  · rcases alnum_ranges h with ⟨h1, h2⟩ | ⟨h1, h2⟩ | ⟨h1, h2⟩ <;>
      exact ⟨by omega, by unfold pyPrintable; simp [decide_eq_true_eq]; omega⟩
  · rw [h] at hws
    exact absurd hws (by simp)
  all_goals subst h
  all_goals decide

theorem okChar_not_special {c : Char} (h : OkChar c) :
    c ≠ emDash ∧ c ≠ enDash ∧ c ≠ hEllipsis := by
  have h128 := (okChar_ascii h).1
  refine ⟨?_, ?_, ?_⟩ <;> intro hc <;> subst hc <;> revert h128 <;> decide

/-! ### Identity of each sanitizer stage on well-shaped input -/

theorem pyReplace_self (a : Char) (l : List Char) : pyReplace a [a] l = l := by
  induction l with
  | nil => rfl
  | cons c r ih =>
    unfold pyReplace
    split
    · rename_i hc
      rw [ih, hc]
      rfl
    · rw [ih]
      rfl

theorem pyReplace_id {a : Char} {b l : List Char} (h : ∀ c ∈ l, c ≠ a) :
    pyReplace a b l = l := by
  induction l with
  | nil => rfl
  | cons c r ih =>
    unfold pyReplace
    rw [if_neg (h c (List.mem_cons_self c r)),
      ih fun c' hc' => h c' (List.mem_cons_of_mem c hc')]
    rfl

theorem mapIdOn {α : Type} {f : α → α} {l : List α} (h : ∀ c ∈ l, f c = c) :
    l.map f = l := by
  induction l with
  | nil => rfl
  | cons c r ih =>
    simp only [List.map_cons]
    rw [h c (List.mem_cons_self c r), ih fun c' hc' => h c' (List.mem_cons_of_mem c hc')]

theorem chain'_of_forall {Rel : Char → Char → Prop} {P : Char → Prop}
    (hrel : ∀ a b, P a → Rel a b) {l : List Char} (h : ∀ c ∈ l, P c) :
    List.Chain' Rel l := by
  induction l with
  | nil => exact List.chain'_nil
  | cons c r ih =>
    rw [List.chain'_cons']
    exact ⟨fun b _ => hrel c b (h c (List.mem_cons_self c r)),
      ih fun c' hc' => h c' (List.mem_cons_of_mem c hc')⟩

theorem collapseWSAux_id : ∀ l : List Char, List.Chain' RelS l →
    (∀ c ∈ l, isPyWS c = true → c = ' ') →
    collapseWSAux false l = l ∧
      ((∀ c, l.head? = some c → isPyWS c = false) → collapseWSAux true l = l) := by
  intro l
  induction l with
  | nil => exact fun _ _ => ⟨rfl, fun _ => rfl⟩
  | cons c r ih =>
    intro hch hsp
    obtain ⟨hhd, hch'⟩ := List.chain'_cons'.mp hch
    obtain ⟨ihf, iht⟩ := ih hch' fun c' hc' => hsp c' (List.mem_cons_of_mem c hc')
    by_cases hc : isPyWS c = true
    · have hceq : c = ' ' := hsp c (List.mem_cons_self c r) hc
      have hrne : ∀ b, r.head? = some b → isPyWS b = false := by
        intro b hb
        have hrel : RelS c b := hhd b hb
        cases hpb : isPyWS b
        · rfl
        · exact absurd ⟨hc, hpb⟩ hrel
      constructor
      · show collapseWSAux false (c :: r) = c :: r
        unfold collapseWSAux
        rw [if_pos hc, iht hrne, hceq]
      · intro hcontra
        have := hcontra c rfl
        rw [hc] at this
        exact absurd this (by simp)
    · have hcf : isPyWS c = false := by
        cases hx : isPyWS c
        · rfl
        · exact absurd hx hc
      constructor
      · show collapseWSAux false (c :: r) = c :: r
        unfold collapseWSAux
        rw [if_neg hc, ihf]
      · intro _
        show collapseWSAux true (c :: r) = c :: r
        unfold collapseWSAux
        rw [if_neg hc, ihf]

theorem collapseWS_id {l : List Char} (hch : List.Chain' RelS l)
    (hsp : ∀ c ∈ l, isPyWS c = true → c = ' ') : collapseWS l = l :=
  (collapseWSAux_id l hch hsp).1

theorem collapseRunsAux_id : ∀ l : List Char, List.Chain' RelR l →
    (collapseRunsAux [] l = l ∧
      ∀ p, isPunct p = true → (∀ c, l.head? = some c → isPunct c = false) →
        collapseRunsAux [p] l = p :: l) := by
  intro l
  induction l with
  | nil => exact fun _ => ⟨rfl, fun p _ _ => rfl⟩
  | cons c r ih =>
    intro hch
    obtain ⟨hhd, hch'⟩ := List.chain'_cons'.mp hch
    obtain ⟨ihf, ihp⟩ := ih hch'
    constructor
    · by_cases hc : isPunct c = true
      · show collapseRunsAux [] (c :: r) = c :: r
        unfold collapseRunsAux
        rw [if_pos hc]
        show collapseRunsAux ([] ++ [c]) r = c :: r
        rw [List.nil_append]
        refine ihp c hc ?_
        intro b hb
        have hrel : RelR c b := hhd b hb
        cases hpb : isPunct b
        · rfl
        · exact absurd ⟨hc, hpb⟩ hrel
      · show collapseRunsAux [] (c :: r) = c :: r
        unfold collapseRunsAux
        rw [if_neg hc, ihf]
        rfl
    · intro p hp hhead
      have hc : isPunct c = false := hhead c rfl
      show collapseRunsAux [p] (c :: r) = p :: c :: r
      unfold collapseRunsAux
      rw [if_neg (by simp [hc]), ihf]
      rfl

theorem collapseRuns_id {l : List Char} (hch : List.Chain' RelR l) :
    collapseRuns l = l :=
  (collapseRunsAux_id l hch).1

theorem spacePunctAux_id : ∀ l : List Char, List.Chain' RelW l →
    (spacePunctAux .s0 l = l ∧
      ∀ acc, (∀ c, l.head? = some c → isPunct c = false) →
        spacePunctAux (.sw acc) l = acc ++ l) := by
  intro l
  induction l with
  | nil =>
    intro _
    refine ⟨rfl, fun acc _ => ?_⟩
    show acc = acc ++ []
    rw [List.append_nil]
  | cons c r ih =>
    intro hch
    obtain ⟨hhd, hch'⟩ := List.chain'_cons'.mp hch
    obtain ⟨ihf, ihsw⟩ := ih hch'
    have hwsne : isPyWS c = true → ∀ b, r.head? = some b → isPunct b = false := by
      intro hc b hb
      have hrel : RelW c b := hhd b hb
      cases hpb : isPunct b
      · rfl
      · exact absurd ⟨hc, hpb⟩ hrel
    constructor
    · by_cases hc : isPyWS c = true
      · show spacePunctAux .s0 (c :: r) = c :: r
        unfold spacePunctAux
        rw [if_pos hc, ihsw [c] (hwsne hc)]
        rfl
      · show spacePunctAux .s0 (c :: r) = c :: r
        unfold spacePunctAux
        rw [if_neg hc, ihf]
    · intro acc hhead
      have hcp : isPunct c = false := hhead c rfl
      by_cases hc : isPyWS c = true
      · show spacePunctAux (.sw acc) (c :: r) = acc ++ c :: r
        unfold spacePunctAux
        rw [if_pos hc, ihsw (acc ++ [c]) (hwsne hc), List.append_assoc]
        rfl
      · show spacePunctAux (.sw acc) (c :: r) = acc ++ c :: r
        unfold spacePunctAux
        rw [if_neg hc, if_neg (by simp [hcp]), ihf]

theorem spacePunct_id {l : List Char} (hch : List.Chain' RelW l) :
    spacePunct l = l :=
  (spacePunctAux_id l hch).1

theorem stripLeft_id {p : Char → Bool} {l : List Char}
    (h : ∀ c, l.head? = some c → p c = false) : stripLeft p l = l := by
  cases l with
  | nil => rfl
  | cons c r =>
    unfold stripLeft
    rw [List.dropWhile_cons_of_neg]
    simp [h c rfl]

theorem stripRight_id {p : Char → Bool} {l : List Char}
    (h : ∀ c, l.getLast? = some c → p c = false) : stripRight p l = l := by
  unfold stripRight
  have hrw : l.reverse.dropWhile p = l.reverse := by
    cases hrev : l.reverse with
    | nil => rfl
    | cons c r =>
      rw [List.dropWhile_cons_of_neg]
      have hc : l.getLast? = some c := by
        rw [← List.head?_reverse, hrev]
        rfl
      simp [h c hc]
  rw [hrw, List.reverse_reverse]

theorem pyStrip_id {p : Char → Bool} {l : List Char}
    (hh : ∀ c, l.head? = some c → p c = false)
    (hl : ∀ c, l.getLast? = some c → p c = false) : pyStrip p l = l := by
  unfold pyStrip
  rw [stripLeft_id hh, stripRight_id hl]

/-! ### joinSpace and pySplit structure lemmas -/

theorem joinSpace_chars {P : Char → Prop} {ws : List (List Char)}
    (hw : ∀ w ∈ ws, ∀ c ∈ w, P c) (hsp : P ' ') : ∀ c ∈ joinSpace ws, P c := by
  induction ws with
  | nil => intro c hc; simp [joinSpace] at hc
  | cons w rest ih =>
    cases rest with
    | nil => exact fun c hc => hw w (List.mem_cons_self w []) c hc
    | cons w' rest' =>
      intro c hc
      simp only [joinSpace] at hc
      rcases List.mem_append.mp hc with hc | hc
      · exact hw w (List.mem_cons_self w _) c hc
      · rcases List.mem_cons.mp hc with rfl | hc
        · exact hsp
        · exact ih (fun u hu => hw u (List.mem_cons_of_mem w hu)) c hc

theorem joinSpace_ne_nil {ws : List (List Char)} (hne : ws ≠ [])
    (hw : ∀ w ∈ ws, w ≠ []) : joinSpace ws ≠ [] := by
  cases ws with
  | nil => exact absurd rfl hne
  | cons w rest =>
    cases rest with
    | nil => exact hw w (List.mem_cons_self w [])
    | cons w' rest' =>
      simp only [joinSpace]
      intro hc
      rcases List.append_eq_nil.mp hc with ⟨-, h2⟩
      simp at h2

theorem joinSpace_head {w : List Char} {ws' : List (List Char)} (hne : w ≠ []) :
    (joinSpace (w :: ws')).head? = w.head? := by
  cases ws' with
  | nil => rfl
  | cons w' rest =>
    cases w with
    | nil => exact absurd rfl hne
    | cons c r => rfl

theorem joinSpace_getLast : ∀ ws : List (List Char), ws ≠ [] →
    (∀ u ∈ ws, u ≠ []) →
    ∃ w ∈ ws, (joinSpace ws).getLast? = w.getLast? := by
  intro ws
  induction ws with
  | nil => intro h _; exact absurd rfl h
  | cons w rest ih =>
    intro _ hne
    cases rest with
    | nil => exact ⟨w, List.mem_cons_self w [], rfl⟩
    | cons w' rest' =>
      obtain ⟨w₀, hw₀, heq⟩ := ih (by simp) fun u hu => hne u (List.mem_cons_of_mem w hu)
      refine ⟨w₀, List.mem_cons_of_mem w hw₀, ?_⟩
      have hjne : joinSpace (w' :: rest') ≠ [] :=
        joinSpace_ne_nil (by simp) fun u hu => hne u (List.mem_cons_of_mem w hu)
      show (w ++ ' ' :: joinSpace (w' :: rest')).getLast? = _
      rw [List.getLast?_append_of_ne_nil _ (by simp)]
      cases hj : joinSpace (w' :: rest') with
      | nil => exact absurd hj hjne
      | cons d m =>
        rw [List.getLast?_cons_cons, ← hj, heq]

theorem joinSpace_chain' {Rel : Char → Char → Prop} {ws : List (List Char)}
    (h1 : ∀ w ∈ ws, w ≠ [] ∧ List.Chain' Rel w)
    (h2 : ∀ w ∈ ws, (∀ c, w.getLast? = some c → Rel c ' ') ∧
      (∀ c, w.head? = some c → Rel ' ' c)) :
    List.Chain' Rel (joinSpace ws) := by
  induction ws with
  | nil => exact List.chain'_nil
  | cons w rest ih =>
    cases rest with
    | nil => exact (h1 w (List.mem_cons_self w [])).2
    | cons w' rest' =>
      show List.Chain' Rel (w ++ ' ' :: joinSpace (w' :: rest'))
      rw [List.chain'_append]
      refine ⟨(h1 w (List.mem_cons_self w _)).2, ?_, ?_⟩
      · rw [List.chain'_cons']
        constructor
        · intro b hb
          rw [joinSpace_head (h1 w' (by simp)).1] at hb
          exact (h2 w' (by simp)).2 b hb
        · exact ih (fun u hu => h1 u (List.mem_cons_of_mem w hu))
            (fun u hu => h2 u (List.mem_cons_of_mem w hu))
      · intro x hx y hy
        simp only [List.head?_cons, Option.mem_def, Option.some.injEq] at hy
        subst hy
        exact (h2 w (List.mem_cons_self w _)).1 x hx

theorem takeWhile_all {pr : Char → Bool} : ∀ {l : List Char},
    (∀ c ∈ l, pr c = true) → l.takeWhile pr = l ∧ l.dropWhile pr = [] := by
  intro l
  induction l with
  | nil => exact fun _ => ⟨rfl, rfl⟩
  | cons c r ih =>
    intro h
    have hc := h c (List.mem_cons_self c r)
    obtain ⟨h1, h2⟩ := ih fun c' hc' => h c' (List.mem_cons_of_mem c hc')
    rw [List.takeWhile_cons_of_pos hc, List.dropWhile_cons_of_pos hc, h1, h2]
    exact ⟨rfl, rfl⟩

theorem pySplitAux_nil (acc : List Char) :
    pySplitAux acc [] = if acc.isEmpty then [] else [acc] := rfl

theorem pySplitAux_cons (acc : List Char) (c : Char) (r : List Char) :
    pySplitAux acc (c :: r) =
      if isPyWS c then
        (if acc.isEmpty then pySplitAux [] r else acc :: pySplitAux [] r)
      else pySplitAux (acc ++ [c]) r := rfl

theorem pySplitAux_ne_nil : ∀ (l acc : List Char), ∀ w ∈ pySplitAux acc l, w ≠ [] := by
  intro l
  induction l with
  | nil =>
    intro acc w hw
    rw [pySplitAux_nil] at hw
    by_cases hacc : acc.isEmpty
    · rw [if_pos hacc] at hw
      simp at hw
    · rw [if_neg hacc] at hw
      rcases List.mem_singleton.mp hw with rfl
      intro hc
      rw [hc] at hacc
      exact hacc rfl
  | cons c r ih =>
    intro acc w hw
    rw [pySplitAux_cons] at hw
    by_cases hc : isPyWS c = true
    · rw [if_pos hc] at hw
      by_cases hacc : acc.isEmpty
      · rw [if_pos hacc] at hw
        exact ih [] w hw
      · rw [if_neg hacc] at hw
        rcases List.mem_cons.mp hw with rfl | hw
        · intro hcn
          rw [hcn] at hacc
          exact hacc rfl
        · exact ih [] w hw
    · rw [if_neg hc] at hw
      exact ih (acc ++ [c]) w hw

theorem pySplitAux_acc : ∀ (l acc : List Char), acc ≠ [] →
    pySplitAux acc l = (acc ++ l.takeWhile (fun c => !isPyWS c)) ::
      pySplitAux [] (l.dropWhile (fun c => !isPyWS c)) := by
  intro l
  induction l with
  | nil =>
    intro acc hacc
    rw [pySplitAux_nil, if_neg (by simp [hacc])]
    simp [pySplitAux_nil]
  | cons c r ih =>
    intro acc hacc
    rw [pySplitAux_cons]
    by_cases hc : isPyWS c = true
    · rw [if_pos hc, if_neg (by simp [hacc]), List.takeWhile_cons, List.dropWhile_cons]
      simp only [hc, Bool.not_true, Bool.false_eq_true, if_false, List.append_nil]
      rw [show pySplitAux [] (c :: r) = pySplitAux [] r by
        rw [pySplitAux_cons, if_pos hc, if_pos List.isEmpty_nil]]
    · have hcf : isPyWS c = false := by
        cases hx : isPyWS c
        · rfl
        · exact absurd hx hc
      rw [if_neg hc, ih (acc ++ [c]) (by simp), List.takeWhile_cons, List.dropWhile_cons]
      simp only [hcf, Bool.not_false, if_true, List.append_assoc, List.singleton_append]

theorem pySplit_joinSpace : ∀ ws : List (List Char),
    (∀ w ∈ ws, w ≠ [] ∧ ∀ c ∈ w, isPyWS c = false) →
    pySplit (joinSpace ws) = ws := by
  intro ws
  induction ws with
  | nil => intro _; rfl
  | cons w rest ih =>
    intro h
    obtain ⟨hne, hwf⟩ := h w (List.mem_cons_self w _)
    have hwall : ∀ c ∈ w, (!isPyWS c) = true := fun c hc => by simp [hwf c hc]
    cases rest with
    | nil =>
      show pySplitAux [] w = [w]
      cases w with
      | nil => exact absurd rfl hne
      | cons c r =>
        have hc : ¬ isPyWS c = true := by
          simp [hwf c (List.mem_cons_self c r)]
        rw [pySplitAux_cons, if_neg hc]
        rw [pySplitAux_acc r ([] ++ [c]) (by simp)]
        obtain ⟨ht, hd⟩ := @takeWhile_all (fun c => !isPyWS c) r
          fun c' hc' => by simp [hwf c' (List.mem_cons_of_mem c hc')]
        rw [ht, hd]
        rfl
    | cons w' rest' =>
      show pySplitAux [] (w ++ ' ' :: joinSpace (w' :: rest')) = w :: w' :: rest'
      cases w with
      | nil => exact absurd rfl hne
      | cons c r =>
        have hc : ¬ isPyWS c = true := by
          simp [hwf c (List.mem_cons_self c r)]
        rw [List.cons_append, pySplitAux_cons, if_neg hc]
        rw [pySplitAux_acc _ ([] ++ [c]) (by simp)]
        have hwf' : ∀ c' ∈ r, isPyWS c' = false := fun c' hc' =>
          hwf c' (List.mem_cons_of_mem c hc')
        have htake : ∀ r₀ : List Char, (∀ c' ∈ r₀, isPyWS c' = false) →
            (r₀ ++ ' ' :: joinSpace (w' :: rest')).takeWhile (fun c => !isPyWS c) = r₀ ∧
            (r₀ ++ ' ' :: joinSpace (w' :: rest')).dropWhile (fun c => !isPyWS c) =
              ' ' :: joinSpace (w' :: rest') := by
          intro r₀
          induction r₀ with
          | nil =>
            intro _
            constructor
            · rw [List.nil_append, List.takeWhile_cons]
              simp [show isPyWS ' ' = true from by decide]
            · rw [List.nil_append, List.dropWhile_cons]
              simp [show isPyWS ' ' = true from by decide]
          | cons d r' ihr =>
            intro hall
            have hd : isPyWS d = false := hall d (List.mem_cons_self d r')
            obtain ⟨iht, ihd⟩ := ihr fun c' hc' => hall c' (List.mem_cons_of_mem d hc')
            constructor
            · rw [List.cons_append, List.takeWhile_cons]
              simp only [hd, Bool.not_false, if_true, iht]
            · rw [List.cons_append, List.dropWhile_cons]
              simp only [hd, Bool.not_false, if_true, ihd]
        rw [(htake r hwf').1, (htake r hwf').2]
        rw [show pySplitAux [] (' ' :: joinSpace (w' :: rest')) =
            pySplitAux [] (joinSpace (w' :: rest')) by
          rw [pySplitAux_cons, if_pos (by decide), if_pos List.isEmpty_nil]]
        rw [show pySplitAux [] (joinSpace (w' :: rest')) =
            pySplit (joinSpace (w' :: rest')) from rfl,
          ih fun u hu => h u (List.mem_cons_of_mem _ hu)]
        simp

/-! ### The second sanitizer pass is the identity on well-shaped output -/

theorem stripSet_cases {c : Char} (h : isStripSet c = true) :
    c = ' ' ∨ c = '.' ∨ c = ',' ∨ c = '!' ∨ c = '?' ∨ c = ';' ∨ c = ':' ∨ c = '-' := by
  unfold isStripSet at h
  simp only [Bool.or_eq_true, beq_iff_eq] at h
  tauto

theorem stripSet_false {c : Char} (hok : OkChar c) (hp : isPunct c = false)
    (hd : c ≠ '-') : isStripSet c = false := by
  cases hx : isStripSet c
  · rfl
  · rcases stripSet_cases hx with rfl | rfl | rfl | rfl | rfl | rfl | rfl | rfl
    · exact absurd hok.2 (by decide)
    · exact absurd hp (by decide)
    · exact absurd hp (by decide)
    · exact absurd hp (by decide)
    · exact absurd hp (by decide)
    · exact absurd hok.1 (by decide)
    · exact absurd hok.1 (by decide)
    · exact absurd rfl hd

theorem shaped_head {ws : List (List Char)} (hok : ∀ w ∈ ws, OkWord w) :
    ∀ c, (joinSpace ws).head? = some c → OkChar c ∧ isPunct c = false := by
  cases ws with
  | nil => intro c hc; simp [joinSpace] at hc
  | cons w rest =>
    intro c hc
    have hokw := hok w (List.mem_cons_self w rest)
    rw [joinSpace_head hokw.1] at hc
    exact ⟨hokw.2.1 c (List.mem_of_mem_head? hc), hokw.2.2.2.1 c hc⟩

theorem shaped_last {ws : List (List Char)} (hne : ws ≠ [])
    (hok : ∀ w ∈ ws, OkWord w) :
    ∀ c, (joinSpace ws).getLast? = some c → OkChar c ∧ isPunct c = false := by
  intro c hc
  obtain ⟨w, hw, heq⟩ := joinSpace_getLast ws hne fun u hu => (hok u hu).1
  rw [heq] at hc
  exact ⟨(hok w hw).2.1 c (List.mem_of_mem_getLast? hc), (hok w hw).2.2.2.2.1 c hc⟩

/-- The pre-processing chain of sanitize_text is the identity on a join of at
least two OkWords that does not begin or end with '-', and its word stage
recovers exactly those words. -/
theorem sanPre_id {ws : List (List Char)} (h2 : 2 ≤ ws.length)
    (hok : ∀ w ∈ ws, OkWord w)
    (hhd : (joinSpace ws).head? ≠ some '-')
    (hlast : (joinSpace ws).getLast? ≠ some '-') :
    pyStrip isPyWS (joinSpace ws) = joinSpace ws ∧
    sanPre (joinSpace ws) = joinSpace ws ∧
    sanWords (joinSpace ws) = ws := by
  have hwsne : ws ≠ [] := by
    intro hc
    rw [hc] at h2
    simp at h2
  have hchars : ∀ c ∈ joinSpace ws, OkChar c ∨ c = ' ' :=
    joinSpace_chars (fun w hw c hc => Or.inl ((hok w hw).2.1 c hc)) (Or.inr rfl)
  have hhead := shaped_head hok
  have hlast' := shaped_last hwsne hok
  have hne : joinSpace ws ≠ [] := joinSpace_ne_nil hwsne fun w hw => (hok w hw).1
  -- stage identities
  have hstrip : pyStrip isPyWS (joinSpace ws) = joinSpace ws := by
    refine pyStrip_id ?_ ?_
    · intro c hc
      exact (hhead c hc).1.2
    · intro c hc
      exact (hlast' c hc).1.2
  have hdash1 : pyReplace emDash ['-'] (joinSpace ws) = joinSpace ws := by
    refine pyReplace_id ?_
    intro c hc
    rcases hchars c hc with hch | rfl
    · exact (okChar_not_special hch).1
    · decide
  have hdash2 : pyReplace enDash ['-'] (joinSpace ws) = joinSpace ws := by
    refine pyReplace_id ?_
    intro c hc
    rcases hchars c hc with hch | rfl
    · exact (okChar_not_special hch).2.1
    · decide
  have hell : pyReplace hEllipsis ['.', '.', '.'] (joinSpace ws) = joinSpace ws := by
    refine pyReplace_id ?_
    intro c hc
    rcases hchars c hc with hch | rfl
    · exact (okChar_not_special hch).2.2
    · decide
  have hf128 : (joinSpace ws).filter (fun c => decide (c.toNat < 128)) = joinSpace ws := by
    refine List.filter_eq_self.mpr ?_
    intro c hc
    rcases hchars c hc with hch | rfl
    · simp [decide_eq_true_eq]
      exact (okChar_ascii hch).1
    · decide
  have hprint : (joinSpace ws).filter
      (fun c => pyPrintable c || c == ' ' || c == '\n' || c == '\r' || c == '\t') =
      joinSpace ws := by
    refine List.filter_eq_self.mpr ?_
    intro c hc
    rcases hchars c hc with hch | rfl
    · simp [(okChar_ascii hch).2]
    · decide
  have hclassm : (joinSpace ws).map (fun c => if isClassChar c then c else ' ') =
      joinSpace ws := by
    refine mapIdOn ?_
    intro c hc
    rcases hchars c hc with hch | rfl
    · rw [if_pos hch.1]
    · rfl
  have hcws : collapseWS (joinSpace ws) = joinSpace ws := by
    refine collapseWS_id ?_ ?_
    · refine joinSpace_chain' (fun w hw => ⟨(hok w hw).1, ?_⟩) (fun w hw => ⟨?_, ?_⟩)
      · refine chain'_of_forall ?_ ((hok w hw).2.1)
        intro a b ha hab
        rw [ha.2] at hab
        simp at hab
      · intro c hc hab
        rw [((hok w hw).2.1 c (List.mem_of_mem_getLast? hc)).2] at hab
        simp at hab
      · intro c hc hab
        rw [((hok w hw).2.1 c (List.mem_of_mem_head? hc)).2] at hab
        simp at hab
    · intro c hc hcws'
      rcases hchars c hc with hch | rfl
      · rw [hch.2] at hcws'
        simp at hcws'
      · rfl
  have hcruns : collapseRuns (joinSpace ws) = joinSpace ws := by
    refine collapseRuns_id ?_
    refine joinSpace_chain' (fun w hw => ⟨(hok w hw).1, (hok w hw).2.2.2.2.2⟩)
      (fun w hw => ⟨?_, ?_⟩)
    · intro c _ hab
      exact absurd hab.2 (by decide)
    · intro c _ hab
      exact absurd hab.1 (by decide)
  have hspw : spacePunct (joinSpace ws) = joinSpace ws := by
    refine spacePunct_id ?_
    refine joinSpace_chain' (fun w hw => ⟨(hok w hw).1, ?_⟩) (fun w hw => ⟨?_, ?_⟩)
    · refine chain'_of_forall ?_ ((hok w hw).2.1)
      intro a b ha hab
      rw [ha.2] at hab
      simp at hab
    · intro c _ hab
      exact absurd hab.2 (by decide)
    · intro c hc hab
      exact absurd hab.2 ((by simp [(hok w hw).2.2.2.1 c hc] :
        ¬ isPunct c = true))
  have hstrip2 : pyStrip isStripSet (joinSpace ws) = joinSpace ws := by
    refine pyStrip_id ?_ ?_
    · intro c hc
      refine stripSet_false (hhead c hc).1 (hhead c hc).2 ?_
      intro hceq
      rw [hceq] at hc
      exact hhd hc
    · intro c hc
      refine stripSet_false (hlast' c hc).1 (hlast' c hc).2 ?_
      intro hceq
      rw [hceq] at hc
      exact hlast hc
  have hpre : sanPre (joinSpace ws) = joinSpace ws := by
    simp only [sanPre]
    rw [hstrip, pyReplace_self, pyReplace_self, pyReplace_self, pyReplace_self,
      hdash1, hdash2, hell, hf128, hprint, hclassm, hcws, hcruns, hspw, hstrip2]
  refine ⟨hstrip, hpre, ?_⟩
  unfold sanWords
  rw [hpre]
  rw [pySplit_joinSpace ws fun w hw =>
    ⟨(hok w hw).1, fun c hc => ((hok w hw).2.1 c hc).2⟩]
  have hfil : ws.filter hasAlnum = ws := by
    refine List.filter_eq_self.mpr ?_
    intro w hw
    obtain ⟨c, hc, hal⟩ := (hok w hw).2.2.1
    exact List.any_eq_true.mpr ⟨c, hc, hal⟩
  rw [hfil]
  refine mapIdOn ?_
  intro w hw
  exact pyStrip_id (fun c hc => (hok w hw).2.2.2.1 c hc)
    (fun c hc => (hok w hw).2.2.2.2.1 c hc)

/-- The second sanitizer pass is the identity on accepted, well-shaped output
that does not begin or end with '-'. -/
theorem sanitize_id {y : List Char} (hsh : Shaped y) (h5 : 5 ≤ y.length)
    (h200 : y.length ≤ 200) (hhd : y.head? ≠ some '-')
    (hlast : y.getLast? ≠ some '-') : sanitize_text y = y := by
  obtain ⟨ws, rfl, h2, hok⟩ := hsh
  obtain ⟨hstrip, hpre, hwords⟩ := sanPre_id h2 hok hhd hlast
  have hne : joinSpace ws ≠ [] :=
    joinSpace_ne_nil (by intro hc; rw [hc] at h2; simp at h2) fun w hw => (hok w hw).1
  unfold sanitize_text
  rw [hstrip, hwords]
  rw [if_neg (by simp [hne]), if_neg (by omega), if_neg (by omega), if_neg (by omega)]

/-! ### Part B: every accepted sanitizer output is Shaped.
The key intermediate invariant is PairSp: in the text handed to the word
split, any two adjacent [.,!?] characters are immediately followed by a
space, so they sit at the end of their token and are stripped off. -/

/-- Any adjacent [.,!?] pair is immediately followed by ' '. -/
def PairSp : List Char → Prop
  | [] => True
  | [_] => True
  | a :: b :: t =>
    (isPunct a = true → isPunct b = true → t.head? = some ' ') ∧ PairSp (b :: t)

/-- Output head discipline of the space-punct scanner in its sw/swp states:
a [.,!?] head is immediately followed by ' '. -/
def HW (out : List Char) : Prop :=
  ∀ d, out.head? = some d → isPunct d = true → out.tail.head? = some ' '

theorem pairSp_cons {a : Char} {l : List Char}
    (h : ∀ b, l.head? = some b → isPunct a = true → isPunct b = true →
      l.tail.head? = some ' ')
    (hl : PairSp l) : PairSp (a :: l) := by
  cases l with
  | nil => exact True.intro
  | cons b t => exact ⟨fun hpa hpb => h b rfl hpa hpb, hl⟩

theorem pairSp_tail {a : Char} {l : List Char} (h : PairSp (a :: l)) : PairSp l := by
  cases l with
  | nil => exact True.intro
  | cons b t => exact h.2

theorem pairSp_suffix {l l' : List Char} (h : PairSp l) (hs : l' <:+ l) : PairSp l' := by
  obtain ⟨q, rfl⟩ := hs
  induction q with
  | nil => exact h
  | cons a q ih => exact ih (pairSp_tail h)

theorem pairSp_nopunct : ∀ {s : List Char}, (∀ c ∈ s, isPunct c = false) → PairSp s := by
  intro s
  induction s with
  | nil => exact fun _ => True.intro
  | cons a r ih =>
    intro h
    refine pairSp_cons ?_ (ih fun c hc => h c (List.mem_cons_of_mem a hc))
    intro b _ hpa _
    exact absurd hpa (by simp [h a (List.mem_cons_self a r)])

theorem pairSp_nopunct_append : ∀ {q s : List Char}, (∀ c ∈ q, isPunct c = false) →
    PairSp s → PairSp (q ++ s) := by
  intro q s
  induction q with
  | nil => exact fun _ hs => hs
  | cons a q' ih =>
    intro hq hs
    refine pairSp_cons ?_ (ih (fun c hc => hq c (List.mem_cons_of_mem a hc)) hs)
    intro b _ hpa _
    exact absurd hpa (by simp [hq a (List.mem_cons_self a q')])

theorem punct_stripSet {c : Char} (h : isPunct c = true) : isStripSet c = true := by
  rcases punct_cases h with rfl | rfl | rfl | rfl <;> decide

/-! ### Strip-end facts -/

theorem dp_head {p : Char → Bool} : ∀ {l : List Char} {c : Char},
    (l.dropWhile p).head? = some c → p c = false := by
  intro l
  induction l with
  | nil => intro c h; simp at h
  | cons a r ih =>
    intro c h
    rw [List.dropWhile_cons] at h
    by_cases ha : p a = true
    · rw [if_pos ha] at h
      exact ih h
    · rw [if_neg ha] at h
      simp only [List.head?_cons, Option.some.injEq] at h
      rw [← h]
      simpa using ha

theorem stripRight_getLast {p : Char → Bool} {l : List Char} {c : Char}
    (h : (stripRight p l).getLast? = some c) : p c = false := by
  unfold stripRight at h
  rw [List.getLast?_reverse] at h
  exact dp_head h

theorem getLast?_pyStrip {p : Char → Bool} {l : List Char} {c : Char}
    (h : (pyStrip p l).getLast? = some c) : p c = false :=
  stripRight_getLast h

theorem stripRight_eq_append (p : Char → Bool) (l : List Char) :
    ∃ s, l = stripRight p l ++ s ∧ ∀ c ∈ s, p c = true := by
  refine ⟨(l.reverse.takeWhile p).reverse, ?_, ?_⟩
  · conv_lhs => rw [← List.reverse_reverse l,
      ← List.takeWhile_append_dropWhile p l.reverse, List.reverse_append]
    rfl
  · intro c hcs
    exact List.mem_takeWhile_imp (List.mem_reverse.mp hcs)

theorem head?_pyStrip {p : Char → Bool} {l : List Char} {c : Char}
    (h : (pyStrip p l).head? = some c) : p c = false := by
  have h' : (stripRight p (l.dropWhile p)).head? = some c := h
  obtain ⟨s, hms, _⟩ := stripRight_eq_append p (l.dropWhile p)
  cases hsr : stripRight p (l.dropWhile p) with
  | nil => rw [hsr] at h'; simp at h'
  | cons a q =>
    rw [hsr] at h'
    simp only [List.head?_cons, Option.some.injEq] at h'
    have hh : (l.dropWhile p).head? = some a := by rw [hms, hsr]; rfl
    rw [← h']
    exact dp_head hh

theorem mem_pyStrip {p : Char → Bool} {l : List Char} {c : Char} (hc : c ∈ l)
    (hp : p c = false) : c ∈ pyStrip p l := by
  have h1 : c ∈ l.dropWhile p := by
    rcases List.mem_append.mp ((List.takeWhile_append_dropWhile p l) ▸ hc) with h | h
    · exact absurd (List.mem_takeWhile_imp h) (by simp [hp])
    · exact h
  obtain ⟨s, hms, hs⟩ := stripRight_eq_append p (l.dropWhile p)
  rcases List.mem_append.mp (hms ▸ h1) with h | h
  · exact h
  · exact absurd (hs c h) (by simp [hp])

theorem pyStrip_sublist (p : Char → Bool) (l : List Char) :
    List.Sublist (pyStrip p l) l := by
  have h2 : List.Sublist ((l.dropWhile p).reverse.dropWhile p) ((l.dropWhile p).reverse) :=
    List.dropWhile_sublist p
  have h3 := List.Sublist.reverse h2
  rw [List.reverse_reverse] at h3
  exact h3.trans (List.dropWhile_sublist p)

/-! ### Chain' RelR survives the per-word punctuation strip -/

theorem tail_reverse_eq (l : List Char) : l.reverse.tail = l.dropLast.reverse := by
  induction l using List.reverseRecOn with
  | nil => rfl
  | append_singleton l a ih => simp

theorem chain_relR_reverse {l : List Char} :
    List.Chain' RelR l.reverse ↔ List.Chain' RelR l := by
  rw [List.chain'_reverse]
  constructor
  · exact List.Chain'.imp fun a b h => fun hc => h ⟨hc.2, hc.1⟩
  · exact List.Chain'.imp fun a b h => fun hc => h ⟨hc.2, hc.1⟩

theorem chain_dropWhile_punct : ∀ l : List Char, List.Chain' RelR l.tail →
    List.Chain' RelR (l.dropWhile isPunct) := by
  intro l
  induction l with
  | nil => intro _; simp
  | cons a r ih =>
    intro h
    rw [List.dropWhile_cons]
    by_cases ha : isPunct a = true
    · rw [if_pos ha]
      exact ih (List.Chain'.tail h)
    · rw [if_neg ha]
      rw [List.chain'_cons']
      exact ⟨fun y _ => fun hc => absurd hc.1 ha, h⟩

theorem chain_stripRight {m : List Char} (hm : List.Chain' RelR m.dropLast) :
    List.Chain' RelR (stripRight isPunct m) := by
  unfold stripRight
  rw [chain_relR_reverse]
  apply chain_dropWhile_punct
  rw [tail_reverse_eq, chain_relR_reverse]
  exact hm

theorem chain_pyStrip {tok : List Char} (h : List.Chain' RelR tok.dropLast) :
    List.Chain' RelR (pyStrip isPunct tok) := by
  unfold pyStrip stripLeft
  cases hm : tok.dropWhile isPunct with
  | nil => exact List.chain'_nil
  | cons a r =>
    apply chain_stripRight
    have hsplit : tok = tok.takeWhile isPunct ++ (a :: r) := by
      rw [← hm]
      exact (List.takeWhile_append_dropWhile isPunct tok).symm
    have h2 : tok.dropLast = tok.takeWhile isPunct ++ (a :: r).dropLast := by
      conv_lhs => rw [hsplit]
      exact List.dropLast_append_of_ne_nil _ (by simp)
    rw [h2] at h
    exact List.Chain'.suffix h ⟨tok.takeWhile isPunct, rfl⟩

/-! ### The space-punct substitution establishes PairSp -/

theorem spacePunctAux_s0_cons (c : Char) (r : List Char) :
    spacePunctAux .s0 (c :: r) =
      if isPyWS c then spacePunctAux (.sw [c]) r else c :: spacePunctAux .s0 r := rfl

theorem spacePunctAux_sw_cons (acc : List Char) (c : Char) (r : List Char) :
    spacePunctAux (.sw acc) (c :: r) =
      if isPyWS c then spacePunctAux (.sw (acc ++ [c])) r
      else if isPunct c then spacePunctAux (.swp acc c) r
      else acc ++ c :: spacePunctAux .s0 r := rfl

theorem spacePunctAux_swp_cons (acc : List Char) (p c : Char) (r : List Char) :
    spacePunctAux (.swp acc p) (c :: r) =
      if isPyWS c then '.' :: ' ' :: spacePunctAux .sskip r
      else acc ++ p :: c :: spacePunctAux .s0 r := rfl

theorem spacePunctAux_sskip_cons (c : Char) (r : List Char) :
    spacePunctAux .sskip (c :: r) =
      if isPyWS c then spacePunctAux .sskip r else c :: spacePunctAux .s0 r := rfl

theorem spw_main : ∀ l : List Char, List.Chain' RelR l →
    ((∀ c, (∀ d, l.head? = some d → ¬(isPunct c = true ∧ isPunct d = true)) →
        PairSp (c :: spacePunctAux .s0 l)) ∧
     (∀ acc, acc ≠ [] → (∀ x ∈ acc, isPyWS x = true) →
        PairSp (spacePunctAux (.sw acc) l) ∧ HW (spacePunctAux (.sw acc) l)) ∧
     (∀ acc p, acc ≠ [] → (∀ x ∈ acc, isPyWS x = true) → isPunct p = true →
        (∀ d, l.head? = some d → ¬(isPunct p = true ∧ isPunct d = true)) →
        PairSp (spacePunctAux (.swp acc p) l) ∧ HW (spacePunctAux (.swp acc p) l)) ∧
     PairSp (spacePunctAux .sskip l)) := by
  intro l
  induction l with
  | nil =>
    intro _
    refine ⟨?_, ?_, ?_, ?_⟩
    · intro c _
      exact True.intro
    · intro acc hne hws
      constructor
      · refine pairSp_nopunct fun c hc => ?_
        cases hp : isPunct c
        · rfl
        · exact absurd (hws c hc) (by simp [punct_not_ws hp])
      · intro d hd hpd
        have hdacc : d ∈ acc := List.mem_of_mem_head? hd
        exact absurd (hws d hdacc) (by simp [punct_not_ws hpd])
    · intro acc p hne hws hp _
      constructor
      · refine pairSp_nopunct_append (fun c hc => ?_) True.intro
        cases hq : isPunct c
        · rfl
        · exact absurd (hws c hc) (by simp [punct_not_ws hq])
      · intro d hd hpd
        cases acc with
        | nil => exact absurd rfl hne
        | cons a acc' =>
          have hd' : ((a :: acc') ++ [p]).head? = some d := hd
          simp only [List.cons_append, List.head?_cons, Option.some.injEq] at hd'
          exact absurd (hws d (hd' ▸ List.mem_cons_self a acc')) (by simp [punct_not_ws hpd])
    · exact True.intro
  | cons e r ih =>
    intro hch
    have hr : List.Chain' RelR r := List.Chain'.tail hch
    have hhead : ∀ d, r.head? = some d → ¬(isPunct e = true ∧ isPunct d = true) :=
      fun d hd => (List.chain'_cons'.mp hch).1 d hd
    obtain ⟨ih0, ihw, ihwp, ihsk⟩ := ih hr
    refine ⟨?_, ?_, ?_, ?_⟩
    · intro c hrel
      rw [spacePunctAux_s0_cons]
      by_cases he : isPyWS e = true
      · rw [if_pos he]
        obtain ⟨hps, hhw⟩ := ihw [e] (by simp) (by intro x hx; simp at hx; rw [hx]; exact he)
        exact pairSp_cons (fun b hb _ hpb => hhw b hb hpb) hps
      · rw [if_neg he]
        refine pairSp_cons ?_ (ih0 e hhead)
        intro b hb hpc hpb
        have hb' : (e :: spacePunctAux .s0 r).head? = some b := hb
        simp only [List.head?_cons, Option.some.injEq] at hb'
        exact absurd ⟨hpc, hb' ▸ hpb⟩ (hrel e rfl)
    · intro acc hne hws
      rw [spacePunctAux_sw_cons]
      by_cases he : isPyWS e = true
      · rw [if_pos he]
        refine ihw (acc ++ [e]) (by simp) ?_
        intro x hx
        rcases List.mem_append.mp hx with h | h
        · exact hws x h
        · simp at h; rw [h]; exact he
      · rw [if_neg he]
        by_cases hpe : isPunct e = true
        · rw [if_pos hpe]
          exact ihwp acc e hne hws hpe fun d hd => hhead d hd
        · rw [if_neg hpe]
          constructor
          · refine pairSp_nopunct_append (fun x hx => ?_) (ih0 e hhead)
            cases hq : isPunct x
            · rfl
            · exact absurd (hws x hx) (by simp [punct_not_ws hq])
          · intro d hd hpd
            cases acc with
            | nil => exact absurd rfl hne
            | cons a acc' =>
              have hd' : ((a :: acc') ++ e :: spacePunctAux .s0 r).head? = some d := hd
              simp only [List.cons_append, List.head?_cons, Option.some.injEq] at hd'
              exact absurd (hws d (hd' ▸ List.mem_cons_self a acc'))
                (by simp [punct_not_ws hpd])
    · intro acc p hne hws hp hrel
      rw [spacePunctAux_swp_cons]
      by_cases he : isPyWS e = true
      · rw [if_pos he]
        constructor
        · refine pairSp_cons ?_ (pairSp_cons ?_ ihsk)
          · intro b hb _ hpb
            have hb' : ((' ' :: spacePunctAux .sskip r)).head? = some b := hb
            simp only [List.head?_cons, Option.some.injEq] at hb'
            exact absurd (hb' ▸ hpb) (by decide)
          · intro b _ hpa _
            exact absurd hpa (by decide)
        · intro d hd _
          rfl
      · rw [if_neg he]
        have hpe : isPunct e = false := by
          cases hq : isPunct e
          · rfl
          · exact absurd ⟨hp, hq⟩ (hrel e rfl)
        constructor
        · refine pairSp_nopunct_append (fun x hx => ?_) ?_
          · cases hq : isPunct x
            · rfl
            · exact absurd (hws x hx) (by simp [punct_not_ws hq])
          · refine pairSp_cons ?_ (ih0 e hhead)
            intro b hb _ hpb
            have hb' : (e :: spacePunctAux .s0 r).head? = some b := hb
            simp only [List.head?_cons, Option.some.injEq] at hb'
            exact absurd (hb' ▸ hpb) (by simp [hpe])
        · intro d hd hpd
          cases acc with
          | nil => exact absurd rfl hne
          | cons a acc' =>
            have hd' : ((a :: acc') ++ p :: e :: spacePunctAux .s0 r).head? = some d := hd
            simp only [List.cons_append, List.head?_cons, Option.some.injEq] at hd'
            exact absurd (hws d (hd' ▸ List.mem_cons_self a acc'))
              (by simp [punct_not_ws hpd])
    · rw [spacePunctAux_sskip_cons]
      by_cases he : isPyWS e = true
      · rw [if_pos he]
        exact ihsk
      · rw [if_neg he]
        exact ih0 e hhead

theorem spacePunct_pairSp {l : List Char} (h : List.Chain' RelR l) :
    PairSp (spacePunct l) :=
  pairSp_tail ((spw_main l h).1 ' ' fun _ _ hand => absurd hand.1 (by decide))

/-! ### PairSp survives the final strip('.,!?;: -') -/

theorem pairSp_front_lastSafe : ∀ {q s : List Char},
    PairSp (q ++ s) → (∀ c ∈ s, isStripSet c = true) →
    (∀ d, q.getLast? = some d → isStripSet d = false) → PairSp q := by
  intro q
  induction q with
  | nil => intro s _ _ _; exact True.intro
  | cons a q' ih =>
    intro s h hsset hq
    cases q' with
    | nil => exact True.intro
    | cons b q'' =>
      refine ⟨?_, ih (pairSp_tail h) hsset ?_⟩
      · intro hpa hpb
        have h1 := h.1 hpa hpb
        cases q'' with
        | nil =>
          exact absurd (punct_stripSet hpb) (by simp [hq b (by simp)])
        | cons u q₃ =>
          have h2 : ((u :: q₃) ++ s).head? = some ' ' := h1
          have h3 : u = ' ' := by simpa using h2
          simp [h3]
      · intro d hd
        refine hq d ?_
        rw [List.getLast?_cons_cons]
        exact hd

theorem pairSp_stripRight {m : List Char} (hm : PairSp m) :
    PairSp (stripRight isStripSet m) := by
  obtain ⟨s, hms, hs⟩ := stripRight_eq_append isStripSet m
  refine pairSp_front_lastSafe (hms ▸ hm) hs ?_
  intro d hd
  exact stripRight_getLast hd

theorem flushRun_small (pend : List Char) :
    flushRun pend = [] ∨ ∃ d, flushRun pend = [d] := by
  unfold flushRun
  by_cases h : 2 ≤ pend.length
  · rw [if_pos h]
    exact Or.inr ⟨'.', rfl⟩
  · rw [if_neg h]
    cases pend with
    | nil => exact Or.inl rfl
    | cons a q =>
      cases q with
      | nil => exact Or.inr ⟨a, rfl⟩
      | cons b q' => exact absurd (by simp) h

/-- The punctuation-run collapse never leaves two adjacent [.,!?] characters. -/
theorem collapseRunsAux_chain : ∀ (l pend : List Char),
    List.Chain' RelR (collapseRunsAux pend l) := by
  intro l
  induction l with
  | nil =>
    intro pend
    rcases flushRun_small pend with h | ⟨d, h⟩
    · rw [show collapseRunsAux pend [] = flushRun pend from rfl, h]
      exact List.chain'_nil
    · rw [show collapseRunsAux pend [] = flushRun pend from rfl, h]
      exact List.chain'_singleton d
  | cons c r ih =>
    intro pend
    rw [show collapseRunsAux pend (c :: r) =
      if isPunct c then collapseRunsAux (pend ++ [c]) r
      else flushRun pend ++ c :: collapseRunsAux [] r from rfl]
    by_cases hc : isPunct c = true
    · rw [if_pos hc]
      exact ih _
    · rw [if_neg hc]
      rcases flushRun_small pend with h | ⟨d, h⟩
      · rw [h, List.nil_append, List.chain'_cons']
        exact ⟨fun y _ => fun hand => absurd hand.1 hc, ih []⟩
      · rw [h, List.singleton_append, List.chain'_cons]
        refine ⟨fun hand => absurd hand.2 hc, ?_⟩
        rw [List.chain'_cons']
        exact ⟨fun y _ => fun hand => absurd hand.1 hc, ih []⟩

theorem strip_spacePunct_pairSp {m : List Char} (h : List.Chain' RelR m) :
    PairSp (pyStrip isStripSet (spacePunct m)) :=
  pairSp_stripRight (pairSp_suffix (spacePunct_pairSp h) (List.dropWhile_suffix _))

set_option maxHeartbeats 2000000 in
theorem sanPre_pairSp (t : List Char) : PairSp (sanPre t) := by
  simp only [sanPre]
  apply strip_spacePunct_pairSp
  apply collapseRunsAux_chain

/-! ### Every character surviving to the word split is in the allowed class -/

theorem collapseWSAux_chars : ∀ (l : List Char) (b : Bool),
    (∀ c ∈ l, isClassChar c = true) → ∀ c ∈ collapseWSAux b l, isClassChar c = true := by
  intro l
  induction l with
  | nil =>
    intro b _ c hc
    cases b <;> simp [collapseWSAux] at hc
  | cons a r ih =>
    intro b hl c hc
    have ha := hl a (List.mem_cons_self a r)
    have hr : ∀ x ∈ r, isClassChar x = true := fun x hx => hl x (List.mem_cons_of_mem a hx)
    cases b with
    | false =>
      rw [show collapseWSAux false (a :: r) =
        if isPyWS a then ' ' :: collapseWSAux true r
        else a :: collapseWSAux false r from rfl] at hc
      by_cases hws : isPyWS a = true
      · rw [if_pos hws] at hc
        rcases List.mem_cons.mp hc with rfl | hc'
        · decide
        · exact ih true hr c hc'
      · rw [if_neg hws] at hc
        rcases List.mem_cons.mp hc with rfl | hc'
        · exact ha
        · exact ih false hr c hc'
    | true =>
      rw [show collapseWSAux true (a :: r) =
        if isPyWS a then collapseWSAux true r
        else a :: collapseWSAux false r from rfl] at hc
      by_cases hws : isPyWS a = true
      · rw [if_pos hws] at hc
        exact ih true hr c hc
      · rw [if_neg hws] at hc
        rcases List.mem_cons.mp hc with rfl | hc'
        · exact ha
        · exact ih false hr c hc'

theorem flushRun_chars {pend : List Char} (hp : ∀ c ∈ pend, isClassChar c = true) :
    ∀ c ∈ flushRun pend, isClassChar c = true := by
  intro c hc
  unfold flushRun at hc
  by_cases h : 2 ≤ pend.length
  · rw [if_pos h] at hc
    simp at hc
    rw [hc]
    decide
  · rw [if_neg h] at hc
    exact hp c hc

theorem collapseRunsAux_chars : ∀ (l pend : List Char),
    (∀ c ∈ pend, isClassChar c = true) → (∀ c ∈ l, isClassChar c = true) →
    ∀ c ∈ collapseRunsAux pend l, isClassChar c = true := by
  intro l
  induction l with
  | nil =>
    intro pend hp _ c hc
    exact flushRun_chars hp c hc
  | cons a r ih =>
    intro pend hp hl c hc
    have ha := hl a (List.mem_cons_self a r)
    have hr : ∀ x ∈ r, isClassChar x = true := fun x hx => hl x (List.mem_cons_of_mem a hx)
    rw [show collapseRunsAux pend (a :: r) =
      if isPunct a then collapseRunsAux (pend ++ [a]) r
      else flushRun pend ++ a :: collapseRunsAux [] r from rfl] at hc
    by_cases hpa : isPunct a = true
    · rw [if_pos hpa] at hc
      refine ih (pend ++ [a]) ?_ hr c hc
      intro x hx
      rcases List.mem_append.mp hx with h | h
      · exact hp x h
      · simp at h; rw [h]; exact ha
    · rw [if_neg hpa] at hc
      rcases List.mem_append.mp hc with h | h
      · exact flushRun_chars hp c h
      · rcases List.mem_cons.mp h with rfl | h'
        · exact ha
        · exact ih [] (by simp) hr c h'

/-- The characters carried in a scanner state. -/
def stChars : SPSt → List Char
  | .s0 => []
  | .sw acc => acc
  | .swp acc p => acc ++ [p]
  | .sskip => []

theorem spacePunctAux_chars : ∀ (l : List Char) (st : SPSt),
    (∀ c ∈ stChars st, isClassChar c = true) →
    (∀ c ∈ l, isClassChar c = true) →
    ∀ c ∈ spacePunctAux st l, isClassChar c = true := by
  intro l
  induction l with
  | nil =>
    intro st hst _ c hc
    cases st with
    | s0 => simp [spacePunctAux] at hc
    | sw acc => exact hst c hc
    | swp acc p => exact hst c hc
    | sskip => simp [spacePunctAux] at hc
  | cons a r ih =>
    intro st hst hl c hc
    have ha := hl a (List.mem_cons_self a r)
    have hr : ∀ x ∈ r, isClassChar x = true := fun x hx => hl x (List.mem_cons_of_mem a hx)
    cases st with
    | s0 =>
      rw [spacePunctAux_s0_cons] at hc
      by_cases hws : isPyWS a = true
      · rw [if_pos hws] at hc
        refine ih (.sw [a]) ?_ hr c hc
        intro x hx
        simp [stChars] at hx
        rw [hx]
        exact ha
      · rw [if_neg hws] at hc
        rcases List.mem_cons.mp hc with rfl | hc'
        · exact ha
        · exact ih .s0 (by simp [stChars]) hr c hc'
    | sw acc =>
      rw [spacePunctAux_sw_cons] at hc
      by_cases hws : isPyWS a = true
      · rw [if_pos hws] at hc
        refine ih (.sw (acc ++ [a])) ?_ hr c hc
        intro x hx
        rcases List.mem_append.mp hx with h | h
        · exact hst x h
        · simp at h; rw [h]; exact ha
      · rw [if_neg hws] at hc
        by_cases hpa : isPunct a = true
        · rw [if_pos hpa] at hc
          refine ih (.swp acc a) ?_ hr c hc
          intro x hx
          rcases List.mem_append.mp hx with h | h
          · exact hst x h
          · simp at h; rw [h]; exact ha
        · rw [if_neg hpa] at hc
          rcases List.mem_append.mp hc with h | h
          · exact hst c h
          · rcases List.mem_cons.mp h with rfl | h'
            · exact ha
            · exact ih .s0 (by simp [stChars]) hr c h'
    | swp acc p =>
      rw [spacePunctAux_swp_cons] at hc
      by_cases hws : isPyWS a = true
      · rw [if_pos hws] at hc
        rcases List.mem_cons.mp hc with rfl | h
        · decide
        · rcases List.mem_cons.mp h with rfl | h'
          · decide
          · exact ih .sskip (by simp [stChars]) hr c h'
      · rw [if_neg hws] at hc
        rcases List.mem_append.mp hc with h | h
        · exact hst c (List.mem_append.mpr (Or.inl h))
        · rcases List.mem_cons.mp h with rfl | h'
          · exact hst c (List.mem_append.mpr (Or.inr (by simp)))
          · rcases List.mem_cons.mp h' with rfl | h''
            · exact ha
            · exact ih .s0 (by simp [stChars]) hr c h''
    | sskip =>
      rw [spacePunctAux_sskip_cons] at hc
      by_cases hws : isPyWS a = true
      · rw [if_pos hws] at hc
        exact ih .sskip (by simp [stChars]) hr c hc
      · rw [if_neg hws] at hc
        rcases List.mem_cons.mp hc with rfl | hc'
        · exact ha
        · exact ih .s0 (by simp [stChars]) hr c hc'

theorem sanPre_class (t : List Char) : ∀ c ∈ sanPre t, isClassChar c = true := by
  simp only [sanPre]
  intro c hc
  have hc2 := (pyStrip_sublist isStripSet _).subset hc
  refine spacePunctAux_chars _ .s0 (by simp [stChars]) ?_ c hc2
  intro c' hc'
  refine collapseRunsAux_chars _ [] (by simp) ?_ c' hc'
  intro c'' hc''
  refine collapseWSAux_chars _ false ?_ c'' hc''
  intro d hd
  obtain ⟨x, _, hx⟩ := List.mem_map.mp hd
  by_cases hcx : isClassChar x = true
  · rw [← hx, if_pos hcx]
    exact hcx
  · rw [← hx, if_neg hcx]
    decide

/-! ### Facts about the tokens of str.split() -/

theorem pySplitAux_chars : ∀ (l acc : List Char),
    (∀ c ∈ acc, isPyWS c = false) →
    ∀ w ∈ pySplitAux acc l, ∀ c ∈ w, (c ∈ acc ∨ c ∈ l) ∧ isPyWS c = false := by
  intro l
  induction l with
  | nil =>
    intro acc hacc w hw c hc
    rw [pySplitAux_nil] at hw
    by_cases he : acc.isEmpty
    · rw [if_pos he] at hw
      simp at hw
    · rw [if_neg he] at hw
      simp only [List.mem_singleton] at hw
      subst hw
      exact ⟨Or.inl hc, hacc c hc⟩
  | cons a r ih =>
    intro acc hacc w hw c hc
    rw [pySplitAux_cons] at hw
    by_cases ha : isPyWS a = true
    · rw [if_pos ha] at hw
      by_cases he : acc.isEmpty
      · rw [if_pos he] at hw
        have h := ih [] (by simp) w hw c hc
        exact ⟨Or.inr (List.mem_cons_of_mem a (h.1.resolve_left (List.not_mem_nil c))), h.2⟩
      · rw [if_neg he] at hw
        rcases List.mem_cons.mp hw with rfl | hw'
        · exact ⟨Or.inl hc, hacc c hc⟩
        · have h := ih [] (by simp) w hw' c hc
          exact ⟨Or.inr (List.mem_cons_of_mem a (h.1.resolve_left (List.not_mem_nil c))), h.2⟩
    · rw [if_neg ha] at hw
      have hacc' : ∀ x ∈ acc ++ [a], isPyWS x = false := by
        intro x hx
        rcases List.mem_append.mp hx with h | h
        · exact hacc x h
        · simp at h
          rw [h]
          simpa using ha
      have h := ih (acc ++ [a]) hacc' w hw c hc
      refine ⟨?_, h.2⟩
      rcases h.1 with h' | h'
      · rcases List.mem_append.mp h' with h'' | h''
        · exact Or.inl h''
        · simp at h''
          exact Or.inr (h'' ▸ List.mem_cons_self a r)
      · exact Or.inr (List.mem_cons_of_mem a h')

/-- Inside the whitespace-delimited token at the head of a PairSp string, all
adjacent characters except possibly the final pair satisfy RelR. -/
theorem ps_take : ∀ s : List Char, PairSp s →
    List.Chain' RelR ((s.takeWhile fun c => !isPyWS c).dropLast) := by
  intro s
  induction s with
  | nil => intro _; simp
  | cons a s' ih =>
    intro hp
    rw [List.takeWhile_cons]
    by_cases ha : (!isPyWS a) = true
    · rw [if_pos ha]
      cases s' with
      | nil => simp
      | cons b t =>
        rw [List.takeWhile_cons]
        by_cases hb : (!isPyWS b) = true
        · rw [if_pos hb]
          cases t with
          | nil => simp
          | cons u t₂ =>
            rw [List.takeWhile_cons]
            by_cases hu : (!isPyWS u) = true
            · rw [if_pos hu]
              show List.Chain' RelR
                (a :: (b :: u :: List.takeWhile (fun c => !isPyWS c) t₂).dropLast)
              rw [List.chain'_cons']
              constructor
              · intro y hy
                have hy' : (b :: (u :: List.takeWhile (fun c => !isPyWS c) t₂).dropLast).head? =
                    some y := hy
                simp only [List.head?_cons, Option.some.injEq] at hy'
                rw [← hy']
                intro hand
                have h1 : (u :: t₂).head? = some ' ' := hp.1 hand.1 hand.2
                simp only [List.head?_cons, Option.some.injEq] at h1
                rw [h1] at hu
                exact absurd hu (by decide)
              · have h2 := ih (pairSp_tail hp)
                rw [List.takeWhile_cons, if_pos hb, List.takeWhile_cons, if_pos hu] at h2
                exact h2
            · rw [if_neg hu]
              simp
        · rw [if_neg hb]
          simp
    · rw [if_neg ha]
      simp

theorem pySplit_chain_aux : ∀ (n : ℕ) (l : List Char), l.length ≤ n → PairSp l →
    ∀ w ∈ pySplitAux [] l, List.Chain' RelR w.dropLast := by
  intro n
  induction n with
  | zero =>
    intro l hl _ w hw
    have hnil : l = [] := List.length_eq_zero.mp (Nat.le_zero.mp hl)
    subst hnil
    rw [pySplitAux_nil] at hw
    simp at hw
  | succ n ih =>
    intro l hl hp w hw
    cases l with
    | nil =>
      rw [pySplitAux_nil] at hw
      simp at hw
    | cons c r =>
      have hr : r.length ≤ n := by
        simp [List.length_cons] at hl
        omega
      rw [pySplitAux_cons] at hw
      by_cases hc : isPyWS c = true
      · rw [if_pos hc, if_pos List.isEmpty_nil] at hw
        exact ih r hr (pairSp_tail hp) w hw
      · rw [if_neg hc] at hw
        simp only [List.nil_append] at hw
        rw [pySplitAux_acc r [c] (by simp)] at hw
        rcases List.mem_cons.mp hw with rfl | hw'
        · have heq : ([c] ++ r.takeWhile fun x => !isPyWS x) =
              (c :: r).takeWhile fun x => !isPyWS x := by
            rw [List.takeWhile_cons, if_pos (by simp [hc])]
            rfl
          rw [heq]
          exact ps_take (c :: r) hp
        · have hsuff : (r.dropWhile fun x => !isPyWS x) <:+ c :: r :=
            (List.dropWhile_suffix _).trans (List.suffix_cons c r)
          refine ih (r.dropWhile fun x => !isPyWS x) ?_ (pairSp_suffix hp hsuff) w hw'
          have h1 : (r.dropWhile fun x => !isPyWS x).length ≤ r.length :=
            (List.dropWhile_sublist _).length_le
          omega

theorem pySplit_chain {l : List Char} (hp : PairSp l) :
    ∀ w ∈ pySplit l, List.Chain' RelR w.dropLast :=
  pySplit_chain_aux l.length l le_rfl hp

/-! ### The words of sanitize_text are well-shaped -/

attribute [irreducible] PairSp

theorem sanWords_ok (t : List Char) : ∀ w ∈ sanWords t, OkWord w := by
  have hclass := sanPre_class t
  have hpair := sanPre_pairSp t
  intro w hw
  simp only [sanWords] at hw
  obtain ⟨tok, htok, rfl⟩ := List.mem_map.mp hw
  obtain ⟨htok1, htok2⟩ := List.mem_filter.mp htok
  have htchars := pySplitAux_chars (sanPre t) [] (by simp) tok htok1
  have htchain : List.Chain' RelR tok.dropLast := pySplit_chain hpair tok htok1
  obtain ⟨c0, hc0, hal⟩ := List.any_eq_true.mp htok2
  have hc0w : c0 ∈ pyStrip isPunct tok := mem_pyStrip hc0 (alnum_not_punct hal)
  refine ⟨List.ne_nil_of_mem hc0w, ?_, ⟨c0, hc0w, hal⟩, ?_, ?_, chain_pyStrip htchain⟩
  · intro c hc
    have hct : c ∈ tok := (pyStrip_sublist isPunct tok).subset hc
    have h := htchars c hct
    exact ⟨hclass c (h.1.resolve_left (List.not_mem_nil c)), h.2⟩
  · intro c hc
    exact head?_pyStrip hc
  · intro c hc
    exact getLast?_pyStrip hc

theorem sanitize_shape_core (t : List Char) :
    sanitize_text t = [] ∨
    (sanitize_text t = joinSpace (sanWords t) ∧ 2 ≤ (sanWords t).length) := by
  simp only [sanitize_text]
  split
  · exact Or.inl rfl
  split
  · exact Or.inl rfl
  split
  · exact Or.inl rfl
  split
  · exact Or.inl rfl
  refine Or.inr ⟨rfl, ?_⟩
  omega

theorem sanitize_shaped {t : List Char} (h : sanitize_text t ≠ []) :
    Shaped (sanitize_text t) := by
  rcases sanitize_shape_core t with hz | ⟨heq, h2⟩
  · exact absurd hz h
  · rw [heq]
    exact ⟨sanWords t, rfl, h2, sanWords_ok t⟩

/-- C4 (amended): sanitize_text is idempotent on every accepted output that
does not begin or end with '-'.  For any text t whose sanitization is
accepted (nonempty result) and whose result neither starts nor ends with a
hyphen, a second sanitization pass returns the result unchanged.  (The
counterexample theorem shows the hyphen proviso is necessary: the final
strip(' .,!?;:-') can leave an edge '-' that the second pass then removes.) -/
theorem c4_amended (t : List Char) (h : sanitize_text t ≠ [])
    (hhd : (sanitize_text t).head? ≠ some '-')
    (hlast : (sanitize_text t).getLast? ≠ some '-') :
    sanitize_text (sanitize_text t) = sanitize_text t := by
  rcases sanitize_length_window t with hz | ⟨h5, h200⟩
  · exact absurd hz h
  · exact sanitize_id (sanitize_shaped h) h5 h200 hhd hlast

/-- Witness for C4: the accepted text "ab cd" is a fixed point of
sanitize_text. -/
theorem c4_witness :
    sanitize_text (sanitize_text "ab cd".toList) = sanitize_text "ab cd".toList :=
  c4_amended "ab cd".toList (by decide) (by decide) (by decide)
